import Mathlib

/-!
Decision-tree builders (`DecisionTree.go`).

A shallow embedding of the sequential and the level-synchronous decision-tree
builders.  Go values that are shared through pointers or slice headers are kept
in an explicit store, so that the effect of `append` on a shared backing array
is visible.
-/

namespace DecisionTree

/-! ## Data model -/

/-- One conjunct of a path: `DimensionFilter{ColumnIndex, DimensionValue}`. -/
structure DimensionFilter where
  ColumnIndex : Int
  DimensionValue : String
deriving DecidableEq, Repr

/-- The zero value of `DimensionFilter`, the content of a freshly allocated slot. -/
def DimensionFilter.zero : DimensionFilter := ⟨0, ""⟩

/-! ## `getRemainingFeatures` -/

/-- First loop of `getRemainingFeatures`:
`for _, feature := range features { exists[feature.ColumnIndex-1] = true }`.
An index outside `exists` is a run-time panic, rendered as `none`. -/
def markExists (exists_ : List Bool) : List DimensionFilter → Option (List Bool)
  | [] => some exists_
  | feature :: rest =>
    if 0 ≤ feature.ColumnIndex - 1 ∧ feature.ColumnIndex - 1 < exists_.length then
      markExists (exists_.set (feature.ColumnIndex - 1).toNat true) rest
    else none

/-- Second loop of `getRemainingFeatures`:
`for index := 1; index <= numFeatures; index++ { if !exists[index-1] { append } }`.
`todo` counts the iterations still to run, `numFeatures - index + 1`. -/
def collectRemaining (exists_ : List Bool) : Nat → Int → List Int → Option (List Int)
  | 0, _, remainingFeatures => some remainingFeatures
  | todo + 1, index, remainingFeatures =>
    match exists_[(index - 1).toNat]? with
    | none => none
    | some e =>
      collectRemaining exists_ todo (index + 1)
        (if !e then remainingFeatures ++ [index] else remainingFeatures)

/-- The constant `maxAlloc` of the gc run time on 64-bit platforms with a 48-bit heap
address space (linux/amd64 among them): `runtime.makeslice` panics with
`makeslice: len out of range` when the length is negative or when the requested memory,
element size times length, exceeds `maxAlloc` bytes. -/
def maxAlloc : Nat := 281474976710656

/-- Embedding of `getRemainingFeatures(features, numFeatures)`.  `make([]bool, numFeatures)`
panics for a negative length and for a length above `maxAlloc` (a `bool` takes one byte).
Memory exhaustion below that limit is a fatal error of the process and not a panic; as for
every other allocation of the program (`append`, new nodes) the memory is taken to be there.
Go `int` is rendered by `Int`: an index `ColumnIndex-1` that wraps around is out of the range
of `exists` just as the unwrapped one is. -/
def getRemainingFeatures (features : List DimensionFilter) (numFeatures : Int) :
    Option (List Int) :=
  if numFeatures < 0 ∨ (maxAlloc : Int) < numFeatures then none
  else
    match markExists (List.replicate numFeatures.toNat false) features with
    | none => none
    | some exists_ => collectRemaining exists_ numFeatures.toNat 1 []

/-! ## Collaborators and run-time environment -/

/-- `DimensionBreakdown`: only its `Distribution` map is used by the builders.  The map is
kept as the list of its entries in the order in which `range` visits them; the statistic
type `σ` is left open.  -/
structure DimensionBreakdown (σ : Type) where
  Distribution : List (String × σ)

/-- The zero value `var bestBreakdown DimensionBreakdown`: a nil map. -/
def DimensionBreakdown.zero {σ : Type} : DimensionBreakdown σ := ⟨[]⟩

/-- What the builders consume from outside `DecisionTree.go`:
* `growCap oldCap newLen`: the capacity the Go run time chooses when `append` has to
  allocate a new backing array;
* `BreakDownSubtreeDimension` applied to `builder.dataset`, which is never written;
* `computeEntropy`; a finite `float64` is a rational number and `<` on finite floats is the
  order of the rationals;
* `Next`: the pair `(record, success)` that the first `dataset.Next([]DimensionFilter{})`
  on `NewDataset(datasetPath)` returns;
* `record_fits`: `record` is a `[]string` held in memory, so its length is within the
  allocation limit of the run time (a slice of more than `maxAlloc` elements cannot be
  made). -/
structure Env (σ : Type) where
  growCap : Nat → Nat → Nat
  BreakDownSubtreeDimension : List DimensionFilter → Int → DimensionBreakdown σ
  computeEntropy : DimensionBreakdown σ → ℚ
  Next : List String × Bool
  record_fits : Next.1.length ≤ maxAlloc

/-- The loop of `runtime.nextslicecap` for capacities from the threshold 256 on:
`newcap += (newcap + 3*threshold) >> 2` until `newcap >= newLen`. -/
def nextslicecapLoop : Nat → Nat → Nat → Nat
  | 0, newcap, _ => newcap
  | fuel + 1, newcap, newLen =>
    if newcap + (newcap + 768) / 4 ≥ newLen then newcap + (newcap + 768) / 4
    else nextslicecapLoop fuel (newcap + (newcap + 768) / 4) newLen

/-- Capacity policy of the gc run time (`runtime.nextslicecap`): the requested length when it
exceeds twice the old capacity, twice the old capacity below 256 elements, growth by about a
quarter above.  `runtime.growslice` then rounds the byte size up to an allocator size class;
that rounding is not part of this definition.  A path grows from the empty slice by one
`DimensionFilter` (24 bytes) at a time, through the capacities 1, 2, 4, 8 and 16, which the
rounding leaves as they are (24, 48, 96, 192 and 384 bytes are size classes); the concrete
data sets below have paths of at most four filters and evaluate `nextslicecap` at the old
capacities 0, 1 and 2 only.  At the next growth, from capacity 16, the run time can return
more than is computed here (37 rather than 32 elements where the 768 bytes get an 8-byte
header and are rounded up to the class of 896 bytes), so this definition is not the
capacity of paths of more than 16 filters; the general theorems hold for every capacity
policy `growCap`. -/
def nextslicecap (oldCap newLen : Nat) : Nat :=
  if newLen > oldCap + oldCap then newLen
  else if oldCap < 256 then oldCap + oldCap
  else nextslicecapLoop newLen oldCap newLen

/-! ## Store: slices, backing arrays and nodes -/

/-- A slice header whose data pointer is the start of backing array `arr`. -/
structure Slice where
  arr : Nat
  len : Nat
  cap : Nat
deriving DecidableEq, Repr

/-- `DecisionTreeNode`; `Features` is a slice header, `Children` holds node pointers
(`Children` is only ever re-assigned from `append(node.Children, child)` on the node
itself, so its backing array is not shared and it is kept as a list). -/
structure DecisionTreeNode where
  Features : Slice
  Children : List Nat
deriving DecidableEq, Repr

/-- The heap: backing arrays of `[]DimensionFilter` (each as long as its capacity) and the
allocated nodes; a node pointer is an index into `nodes`. -/
structure Store where
  arrays : List (List DimensionFilter)
  nodes : List DecisionTreeNode
deriving DecidableEq, Repr

/-- The elements a slice header denotes in the store. -/
def Store.read (st : Store) (s : Slice) : List DimensionFilter :=
  ((st.arrays[s.arr]?).getD []).take s.len

/-- The path `node.Features` of the node behind pointer `n`, as a list of filters. -/
def Store.features (st : Store) (n : Nat) : List DimensionFilter :=
  match st.nodes[n]? with
  | some node => st.read node.Features
  | none => []

/-- The pointers `node.Children` of the node behind pointer `n`. -/
def Store.children (st : Store) (n : Nat) : List Nat :=
  match st.nodes[n]? with
  | some node => node.Children
  | none => []

/-- Go `append(s, f)` for one element: with spare capacity the element is written into the
shared backing array at index `len(s)`; otherwise a new array is allocated which holds the
elements of `s`, then `f`, then zero values up to the chosen capacity. -/
def appendFilter (growCap : Nat → Nat → Nat) (st : Store) (s : Slice) (f : DimensionFilter) :
    Store × Slice :=
  if s.len < s.cap then
    ({ st with arrays := st.arrays.set s.arr (((st.arrays[s.arr]?).getD []).set s.len f) },
      { s with len := s.len + 1 })
  else
    ({ st with arrays := st.arrays ++
        [st.read s ++ f :: List.replicate (growCap s.cap (s.len + 1) - (s.len + 1))
          DimensionFilter.zero] },
      ⟨st.arrays.length, s.len + 1,
        (st.read s ++ f :: List.replicate (growCap s.cap (s.len + 1) - (s.len + 1))
          DimensionFilter.zero).length⟩)

/-- Embedding of `node.appendChild(child)`: `node.Children = append(node.Children, child)`.
`none` is the nil-pointer panic. -/
def appendChild (st : Store) (node child : Nat) : Option Store :=
  match st.nodes[node]? with
  | some nd => some { st with nodes := st.nodes.set node { nd with Children := nd.Children ++ [child] } }
  | none => none

/-- Embedding of `node.isLeaf()`. -/
def isLeaf (st : Store) (node : Nat) : Option Bool :=
  match st.nodes[node]? with
  | some nd => some (nd.Children.length == 0)
  | none => none

/-! ## `getSchemaWidth` -/

/-- Embedding of `getSchemaWidth`: `len(record)` when `success`, otherwise
`panic("Empty or malformed file!")`, rendered as `none`.  The source carries the comment
`// Exclude target feature`, but what it returns is the full `len(record)`, target column
included; the target is excluded by `Build`, which passes `width - 1` to `growTree`. -/
def getSchemaWidth (next : List String × Bool) : Option Int :=
  if next.2 then some (next.1.length : Int) else none

/-- Modelled from the spec: `Dataset.Next` is not in `DecisionTree.go`.  The spec gives it
as `next(filters) → (row, hasMore)`, streaming the rows that match the filters; on a fresh
data set and without filters the first call yields the first row, or reports that there is
none. -/
def firstNext (rows : List (List String)) : List String × Bool :=
  match rows with
  | [] => ([], false)
  | record :: _ => (record, true)

/-! ## Selection of the best column -/

/-- The three loop variables `bestEntropy`, `bestBreakdown`, `bestDimension`. -/
structure Best (σ : Type) where
  bestEntropy : ℚ
  bestBreakdown : DimensionBreakdown σ
  bestDimension : Int

/-- Their initial values: `bestEntropy := 1.0`, zero breakdown, `bestDimension == 0`. -/
def Best.init {σ : Type} : Best σ := ⟨1, DimensionBreakdown.zero, 0⟩

/-- Body of the reduction loop of `DecisionTreeBuilderSeq.growTree`. -/
def selectStep {σ : Type} (env : Env σ) (features : List DimensionFilter) (b : Best σ)
    (index : Int) : Best σ :=
  if env.computeEntropy (env.BreakDownSubtreeDimension features index) < b.bestEntropy then
    ⟨env.computeEntropy (env.BreakDownSubtreeDimension features index),
      env.BreakDownSubtreeDimension features index, index⟩
  else b

/-- The reduction loop of `DecisionTreeBuilderSeq.growTree` over `remainingFeatures`. -/
def selectBest {σ : Type} (env : Env σ) (features : List DimensionFilter)
    (remainingFeatures : List Int) : Best σ :=
  remainingFeatures.foldl (selectStep env features) Best.init

/-- The fields of `EvalTask` that `DecisionTree.go` writes or reads. -/
structure EvalTask (σ : Type) where
  SubtreeDesc : Slice
  FeatureDimension : Int
  DimensionBreakdown : DimensionBreakdown σ
  Entropy : ℚ

/-- Modelled from the spec: `EvalTask.execute` is not in `DecisionTree.go`.  The spec gives
it as the side-effect-free computation of the breakdown and of its entropy for the single
(path, column) pair of the task, written once into the task. -/
def EvalTask.execute {σ : Type} (env : Env σ) (st : Store) (task : EvalTask σ) : EvalTask σ :=
  { task with
    DimensionBreakdown :=
      env.BreakDownSubtreeDimension (st.read task.SubtreeDesc) task.FeatureDimension
    Entropy := env.computeEntropy
      (env.BreakDownSubtreeDimension (st.read task.SubtreeDesc) task.FeatureDimension) }

/-- Embedding of `AddEvalTask`, the task being read after its future has been waited for:
`new(EvalTask)` with `SubtreeDesc` and `FeatureDimension` set, then executed by the pool. -/
def AddEvalTask {σ : Type} (env : Env σ) (st : Store) (subtreeDesc : Slice)
    (featureDimension : Int) : EvalTask σ :=
  EvalTask.execute env st
    { SubtreeDesc := subtreeDesc
      FeatureDimension := featureDimension
      DimensionBreakdown := DimensionBreakdown.zero
      Entropy := 0 }

/-- Body of the reduction loop of `AggregatorTask.execute` over the waited futures. -/
def reduceStep {σ : Type} (b : Best σ) (evalTask : EvalTask σ) : Best σ :=
  if evalTask.Entropy < b.bestEntropy then
    ⟨evalTask.Entropy, evalTask.DimensionBreakdown, evalTask.FeatureDimension⟩
  else b

/-! ## Growth -/

/-- Body of the loop `for value := range bestBreakdown.Distribution`, shared by
`DecisionTreeBuilderSeq.growTree` (where `acc.2` is `newLeaves`) and
`AggregatorTask.execute` (where `acc.2` is `task.Children`):
`node := new(DecisionTreeNode)`, whose pointer is the next free index of `nodes`;
`node.Features = append(leaf.Features, DimensionFilter{bestDimension, value})`;
the pointer is appended to `acc.2`; `leaf.appendChild(node)`. -/
def addChild {σ : Type} (env : Env σ) (leaf : Nat) (bestDimension : Int)
    (acc : Store × List Nat) (value : String) : Option (Store × List Nat) :=
  match acc.1.nodes[leaf]? with
  | none => none
  | some lf =>
    match appendChild
        { (appendFilter env.growCap acc.1 lf.Features ⟨bestDimension, value⟩).1 with
          nodes := (appendFilter env.growCap acc.1 lf.Features ⟨bestDimension, value⟩).1.nodes ++
            [⟨(appendFilter env.growCap acc.1 lf.Features ⟨bestDimension, value⟩).2, []⟩] }
        leaf acc.1.nodes.length with
    | none => none
    | some st => some (st, acc.2 ++ [acc.1.nodes.length])

/-- The loop over the keys of the winning breakdown. -/
def addChildren {σ : Type} (env : Env σ) (leaf : Nat) (bestDimension : Int) :
    List String → Store × List Nat → Option (Store × List Nat)
  | [], acc => some acc
  | value :: rest, acc =>
    match addChild env leaf bestDimension acc value with
    | none => none
    | some acc1 => addChildren env leaf bestDimension rest acc1

/-- One iteration of `for _, leaf := range builder.currentLeaves` in
`DecisionTreeBuilderSeq.growTree`; `acc.2` is `newLeaves`. -/
def growLeaf {σ : Type} (env : Env σ) (numFeatures : Int) (acc : Store × List Nat)
    (leaf : Nat) : Option (Store × List Nat) :=
  match acc.1.nodes[leaf]? with
  | none => none
  | some lf =>
    match getRemainingFeatures (acc.1.read lf.Features) numFeatures with
    | none => none
    | some remainingFeatures =>
      addChildren env leaf
        (selectBest env (acc.1.read lf.Features) remainingFeatures).bestDimension
        ((selectBest env (acc.1.read lf.Features) remainingFeatures).bestBreakdown.Distribution.map
          Prod.fst)
        acc

/-- The loop over `builder.currentLeaves`. -/
def growLeaves {σ : Type} (env : Env σ) (numFeatures : Int) :
    List Nat → Store × List Nat → Option (Store × List Nat)
  | [], acc => some acc
  | leaf :: rest, acc =>
    match growLeaf env numFeatures acc leaf with
    | none => none
    | some acc1 => growLeaves env numFeatures rest acc1

/-- State of a builder: the heap, `root` and `currentLeaves` (the data set is in `Env`).
Both builders have these fields. -/
structure Builder where
  store : Store
  root : Nat
  currentLeaves : List Nat
deriving DecidableEq, Repr

/-- Embedding of `NewSequentialDecisionTreeBuilder`: the root has
`Features = make([]DimensionFilter, 0)` (length and capacity 0, backing array 0) and is the
only current leaf. -/
def NewSequentialDecisionTreeBuilder : Builder :=
  { store := ⟨[[]], [⟨⟨0, 0, 0⟩, []⟩]⟩, root := 0, currentLeaves := [0] }

/-- Embedding of `DecisionTreeBuilderSeq.growTree`. -/
def DecisionTreeBuilderSeq.growTree {σ : Type} (env : Env σ) (builder : Builder)
    (numFeatures : Int) : Option Builder :=
  match growLeaves env numFeatures builder.currentLeaves (builder.store, []) with
  | none => none
  | some (st, newLeaves) => some { builder with store := st, currentLeaves := newLeaves }

/-- The loop `for i := 0; i < numFeatures; i++ { grow }`, by the number of iterations left. -/
def growLoop (grow : Builder → Option Builder) : Nat → Builder → Option Builder
  | 0, builder => some builder
  | n + 1, builder =>
    match grow builder with
    | none => none
    | some builder1 => growLoop grow n builder1

/-- Embedding of `DecisionTreeBuilderSeq.Build`.  The result is the final builder state:
the returned tree is what `root` reaches in `store`. -/
def DecisionTreeBuilderSeq.Build {σ : Type} (env : Env σ) (builder : Builder) : Option Builder :=
  match getSchemaWidth env.Next with
  | none => none
  | some width =>
    growLoop (fun b => DecisionTreeBuilderSeq.growTree env b (width - 1)) (width - 1).toNat builder

/-- Embedding of `AggregatorTask.execute` for the task made by
`AddAggregatorTask(builder, leaf, numFeatures)`; the second component is `task.Children`. -/
def AggregatorTask.execute {σ : Type} (env : Env σ) (st : Store) (leaf : Nat)
    (numFeatures : Int) : Option (Store × List Nat) :=
  match st.nodes[leaf]? with
  | none => none
  | some lf =>
    match getRemainingFeatures (st.read lf.Features) numFeatures with
    | none => none
    | some remainingFeatures =>
      addChildren env leaf
        (((remainingFeatures.map (AddEvalTask env st lf.Features)).foldl reduceStep
          Best.init).bestDimension)
        (((remainingFeatures.map (AddEvalTask env st lf.Features)).foldl reduceStep
          Best.init).bestBreakdown.Distribution.map Prod.fst)
        (st, [])

/-- The aggregator tasks of one level, run to completion one after the other in submission
order; the second component collects `task.Children` of each future. -/
def runAggregators {σ : Type} (env : Env σ) (numFeatures : Int) :
    List Nat → Store × List (List Nat) → Option (Store × List (List Nat))
  | [], acc => some acc
  | leaf :: rest, acc =>
    match AggregatorTask.execute env acc.1 leaf numFeatures with
    | none => none
    | some (st, children) => runAggregators env numFeatures rest (st, acc.2 ++ [children])

/-- Embedding of `NewParallelDecisionTreeBuilder` (the worker pools are not modelled). -/
def NewParallelDecisionTreeBuilder : Builder :=
  { store := ⟨[[]], [⟨⟨0, 0, 0⟩, []⟩]⟩, root := 0, currentLeaves := [0] }

/-- Embedding of `DecisionTreeBuilderParallel.growTree`: one aggregator per current leaf,
then `newLeaves` gathers the children of every future in submission order. -/
def DecisionTreeBuilderParallel.growTree {σ : Type} (env : Env σ) (builder : Builder)
    (numFeatures : Int) : Option Builder :=
  match runAggregators env numFeatures builder.currentLeaves (builder.store, []) with
  | none => none
  | some (st, futures) =>
    some { builder with
      store := st
      currentLeaves := futures.foldl (fun newLeaves children =>
        children.foldl (fun nl leaf => nl ++ [leaf]) newLeaves) [] }

/-- Embedding of `DecisionTreeBuilderParallel.Build`. -/
def DecisionTreeBuilderParallel.Build {σ : Type} (env : Env σ) (builder : Builder) :
    Option Builder :=
  match getSchemaWidth env.Next with
  | none => none
  | some width =>
    growLoop (fun b => DecisionTreeBuilderParallel.growTree env b (width - 1)) (width - 1).toNat
      builder

/-! ## Trees in the store -/

/-- Node `n` belongs to the tree under `root`: it is reached by following `Children`. -/
inductive Reachable (st : Store) (root : Nat) : Nat → Prop
  | root : Reachable st root root
  | child {p c : Nat} : Reachable st root p → c ∈ st.children p → Reachable st root c

/-- Column indices of a path. -/
def columns (path : List DimensionFilter) : List Int := path.map (·.ColumnIndex)

/-! ## Well-formedness of the store -/

/-- A slice header is backed by the store: its array exists, is as long as the capacity,
and the length does not exceed the capacity. -/
def Store.Backed (st : Store) (s : Slice) : Prop :=
  ∃ a, st.arrays[s.arr]? = some a ∧ a.length = s.cap ∧ s.len ≤ s.cap

/-- A path whose columns are pairwise distinct and lie in `1..numFeatures`. -/
def GoodPath (numFeatures : Int) (path : List DimensionFilter) : Prop :=
  (columns path).Nodup ∧ ∀ f ∈ path, 1 ≤ f.ColumnIndex ∧ f.ColumnIndex ≤ numFeatures

/-- Invariant of the store while the tree grows: every node has a backed path of at most
`m` filters with distinct in-range columns, and the path of every child extends the path
of its parent by one filter. -/
structure Inv (numFeatures : Int) (m : Nat) (st : Store) : Prop where
  backed : ∀ (n : Nat) (nd : DecisionTreeNode), st.nodes[n]? = some nd → st.Backed nd.Features
  depth : ∀ (n : Nat) (nd : DecisionTreeNode), st.nodes[n]? = some nd → nd.Features.len ≤ m
  good : ∀ (n : Nat) (nd : DecisionTreeNode), st.nodes[n]? = some nd →
    GoodPath numFeatures (st.read nd.Features)
  edge : ∀ (n : Nat) (nd : DecisionTreeNode), st.nodes[n]? = some nd → ∀ c ∈ nd.Children,
    ∃ cd : DecisionTreeNode, st.nodes[c]? = some cd ∧
      cd.Features.len = nd.Features.len + 1 ∧
      (st.read cd.Features).take nd.Features.len = st.read nd.Features

/-- What one `append(s, f)` does to the store. -/
structure AppendSpec (st st1 : Store) (s s1 : Slice) (f : DimensionFilter) : Prop where
  nodes_eq : st1.nodes = st.nodes
  len_eq : s1.len = s.len + 1
  backed_new : st1.Backed s1
  read_new : st1.read s1 = st.read s ++ [f]
  backed_old : ∀ t, st.Backed t → st1.Backed t
  take_old : ∀ t, st.Backed t → (st1.read t).take s.len = (st.read t).take s.len
  read_old : ∀ t, st.Backed t → t.len ≤ s.len + 1 →
    st1.read t = st.read t ∨ st1.read t = st.read s ++ [f]
  alloc : ¬ s.len < s.cap → ∀ t, st.Backed t → st1.read t = st.read t

/-- Store `st1` results from `st` when the current leaf `leaf`, whose path `base` has `k`
filters, is given the children `new`, one for each key of `keys`, on column `d`. -/
structure Grown (k : Nat) (base : List DimensionFilter) (d : Int) (keys : List String)
    (st st1 : Store) (leaf : Nat) (new : List Nat) : Prop where
  old : ∀ (n : Nat) (nd : DecisionTreeNode), st.nodes[n]? = some nd →
    st1.nodes[n]? = some ⟨nd.Features, if n = leaf then nd.Children ++ new else nd.Children⟩
  new_eq : new = List.range' st.nodes.length keys.length
  length : st1.nodes.length = st.nodes.length + keys.length
  fresh : ∀ (n : Nat) (nd : DecisionTreeNode), st1.nodes[n]? = some nd → st.nodes.length ≤ n →
    nd.Features.len = k + 1 ∧ nd.Children = [] ∧
      ∃ v ∈ keys, st1.read nd.Features = base ++ [⟨d, v⟩]
  stable : ∀ t : Slice, st.Backed t → t.len ≤ k → st1.read t = st.read t
  reread : ∀ t : Slice, st.Backed t → t.len ≤ k + 1 →
    st1.read t = st.read t ∨ ∃ v ∈ keys, st1.read t = base ++ [⟨d, v⟩]
  backed : ∀ t : Slice, st.Backed t → st1.Backed t
  alloc : ∀ lf : DecisionTreeNode, st.nodes[leaf]? = some lf → lf.Features.cap = k →
    ∀ t : Slice, st.Backed t → st1.read t = st.read t
  exact : ∀ lf : DecisionTreeNode, st.nodes[leaf]? = some lf → lf.Features.cap = k →
    ∀ (i : Nat) (v : String), keys[i]? = some v →
      ∃ nd : DecisionTreeNode, st1.nodes[st.nodes.length + i]? = some nd ∧
        st1.read nd.Features = base ++ [⟨d, v⟩]

/-- One iteration of the loop over the current leaves: `leaf` has a path of `k` filters and
receives the children `new`, on the column and for the keys that the reduction loop selects
for its path. -/
def LeafGrown {σ : Type} (env : Env σ) (numFeatures : Int) (k : Nat) (st st1 : Store)
    (leaf : Nat) (new : List Nat) : Prop :=
  ∃ (lf : DecisionTreeNode) (rem : List Int),
    Inv numFeatures (k + 1) st ∧ Inv numFeatures (k + 1) st1 ∧
    st.nodes[leaf]? = some lf ∧ lf.Features.len = k ∧
    getRemainingFeatures (st.read lf.Features) numFeatures = some rem ∧
    Grown k (st.read lf.Features) (selectBest env (st.read lf.Features) rem).bestDimension
      ((selectBest env (st.read lf.Features) rem).bestBreakdown.Distribution.map Prod.fst)
      st st1 leaf new

/-- The trace of one level: the current leaves are expanded one after the other, and the new
leaves are the children in that order. -/
inductive LevelGrown {σ : Type} (env : Env σ) (numFeatures : Int) (k : Nat) :
    List Nat → Store → Store → List Nat → Prop
  | nil (st : Store) : LevelGrown env numFeatures k [] st st []
  | cons {leaf : Nat} {rest : List Nat} {st st1 st2 : Store} {new newRest : List Nat} :
    LeafGrown env numFeatures k st st1 leaf new →
    LevelGrown env numFeatures k rest st1 st2 newRest →
    LevelGrown env numFeatures k (leaf :: rest) st st2 (new ++ newRest)

/-- Invariant of a builder between two calls of `growTree`, after `k` calls: the store is
well formed with paths of at most `k` filters, the current leaves are exactly the nodes with
`k` filters and have no children yet, and the root has the empty path. -/
structure LevelInv (numFeatures : Int) (k : Nat) (b : Builder) : Prop where
  inv : Inv numFeatures k b.store
  frontier : ∀ l ∈ b.currentLeaves, ∃ lf : DecisionTreeNode,
    b.store.nodes[l]? = some lf ∧ lf.Features.len = k ∧ lf.Children = []
  complete : ∀ (n : Nat) (nd : DecisionTreeNode), b.store.nodes[n]? = some nd →
    nd.Features.len = k → n ∈ b.currentLeaves
  root : ∃ r : DecisionTreeNode, b.store.nodes[b.root]? = some r ∧ r.Features.len = 0

/-! ## Concrete data sets -/

/-- Two rows `v,v,v,a,t` and `v,v,v,b,t`: four feature columns, of which only the fourth
takes two values, and a constant target, so that every sub-population is pure
(entropy 0).  The fourth column is visited `a` then `b`. -/
def envFour : Env Nat :=
  { growCap := nextslicecap
    BreakDownSubtreeDimension := fun _ index =>
      if index = 4 then ⟨[("a", 1), ("b", 1)]⟩ else ⟨[("v", 2)]⟩
    computeEntropy := fun _ => 0
    Next := (["v", "v", "v", "a", "t"], true)
    record_fits := by decide }

/-- Two rows `v,t` and `v,u`: one feature column with the single value `v` and a target that
takes two values equally often, so that the only breakdown is maximally impure
(entropy 1). -/
def envOne : Env Nat :=
  { growCap := nextslicecap
    BreakDownSubtreeDimension := fun _ _ => ⟨[("v", 2)]⟩
    computeEntropy := fun _ => 1
    Next := firstNext [["v", "t"], ["v", "u"]]
    record_fits := by decide }

/-- The data set of `envFour` read in a run in which `range` visits the two values of the
fourth column in the other order, `b` then `a`. -/
def envFourRev : Env Nat :=
  { growCap := nextslicecap
    BreakDownSubtreeDimension := fun _ index =>
      if index = 4 then ⟨[("b", 1), ("a", 1)]⟩ else ⟨[("v", 2)]⟩
    computeEntropy := fun _ => 0
    Next := (["v", "v", "v", "a", "t"], true)
    record_fits := by decide }

/-- The builder of `envFour` after three calls of `growTree`. -/
def afterThreeLevels : Option Builder :=
  growLoop (fun b => DecisionTreeBuilderSeq.growTree envFour b 4) 3
    NewSequentialDecisionTreeBuilder

/-- The shape that the end-to-end data set requires of a returned tree: the root has one
child per value `x`, `y`, each with the single filter on column `a`, and every such child
has children, all of which add a filter on column `b`. -/
def SplitsOnThen (a b : Int) (t : Builder) : Prop :=
  ((t.store.children t.root).map t.store.features).Perm [[⟨a, "x"⟩], [⟨a, "y"⟩]] ∧
  ∀ c ∈ t.store.children t.root, t.store.children c ≠ [] ∧
    ∀ g ∈ t.store.children c,
      ∃ v : String, t.store.features g = t.store.features c ++ [⟨b, v⟩]

/-- The four rows `x,p,s` / `x,q,s` / `y,p,u` / `y,q,u`: column 1 (values `x`, `y`) fixes the
target, column 2 (values `p`, `q`) is independent of it.  The statistic of a value is the
pair of the numbers of its rows with target `s` and with target `u`; a breakdown whose
values are all pure has entropy 0, the breakdown of column 2 over all rows has entropy 1. -/
def envAB : Env (Nat × Nat) :=
  { growCap := nextslicecap
    BreakDownSubtreeDimension := fun path index =>
      if index = 1 then
        (if path = [] then ⟨[("x", (2, 0)), ("y", (0, 2))]⟩
         else ⟨[("x", (1, 0)), ("y", (0, 1))]⟩)
      else
        (if path = [] then ⟨[("p", (1, 1)), ("q", (1, 1))]⟩
         else if path = [⟨1, "x"⟩] then ⟨[("p", (1, 0)), ("q", (1, 0))]⟩
         else ⟨[("p", (0, 1)), ("q", (0, 1))]⟩)
    computeEntropy := fun breakdown =>
      if breakdown.Distribution.all (fun kv => kv.2.1 == 0 || kv.2.2 == 0) then 0 else 1
    Next := firstNext [["x", "p", "s"], ["x", "q", "s"], ["y", "p", "u"], ["y", "q", "u"]]
    record_fits := by decide }

/-- The builder after the first `k` iterations of the loop of `Build`, that is, the state in
which call number `k + 1` of `growTree` starts. -/
def afterLevels {σ : Type} (env : Env σ) (numFeatures : Int) (k : Nat) : Option Builder :=
  growLoop (fun b => DecisionTreeBuilderSeq.growTree env b numFeatures) k
    NewSequentialDecisionTreeBuilder

/-! ## `getRemainingFeatures` -/

/-- The number of feature columns of a data set that has a first row is within the
allocation limit, since the row itself is held in memory. -/
theorem width_fits {σ : Type} (env : Env σ) (width : Int)
    (hw : getSchemaWidth env.Next = some width) : width - 1 ≤ (maxAlloc : Int) := by
  have h := env.record_fits
  unfold getSchemaWidth at hw
  split at hw
  · simp only [Option.some.injEq] at hw
    omega
  · exact absurd hw (by simp)

theorem markExists_spec (path : List DimensionFilter) :
    ∀ ex : List Bool, (∀ f ∈ path, 1 ≤ f.ColumnIndex ∧ f.ColumnIndex ≤ ex.length) →
      ∃ ex1, markExists ex path = some ex1 ∧ ex1.length = ex.length ∧
        ∀ i : Nat, i < ex.length →
          (ex1[i]? = some true ↔
            (ex[i]? = some true ∨ ∃ f ∈ path, f.ColumnIndex = (i : Int) + 1)) := by
  induction path with
  | nil =>
    intro ex _
    exact ⟨ex, rfl, rfl, fun i _ => by simp⟩
  | cons f rest ih =>
    intro ex h
    have hf := h f (List.mem_cons_self _ _)
    have hlt : (f.ColumnIndex - 1).toNat < ex.length := by omega
    obtain ⟨ex1, h1, h2, h3⟩ := ih (ex.set (f.ColumnIndex - 1).toNat true) (by
      intro g hg
      have := h g (List.mem_cons_of_mem _ hg)
      simpa using this)
    refine ⟨ex1, ?_, by simpa using h2, ?_⟩
    · have hc : 0 ≤ f.ColumnIndex - 1 ∧ f.ColumnIndex - 1 < (ex.length : Int) := by omega
      simp only [markExists, hc, and_self, if_true]
      exact h1
    · intro i hi
      rw [h3 i (by simpa using hi), List.getElem?_set]
      by_cases hji : (f.ColumnIndex - 1).toNat = i
      · have hfi : f.ColumnIndex = (i : Int) + 1 := by omega
        rw [if_pos hji, if_pos hlt]
        constructor
        · intro _
          exact Or.inr ⟨f, List.mem_cons_self _ _, hfi⟩
        · intro _
          exact Or.inl rfl
      · have hfi : f.ColumnIndex ≠ (i : Int) + 1 := by omega
        rw [if_neg hji]
        constructor
        · rintro (h4 | ⟨g, hg, hgi⟩)
          · exact Or.inl h4
          · exact Or.inr ⟨g, List.mem_cons_of_mem _ hg, hgi⟩
        · rintro (h4 | ⟨g, hg, hgi⟩)
          · exact Or.inl h4
          · rcases List.mem_cons.1 hg with rfl | hg
            · exact absurd hgi hfi
            · exact Or.inr ⟨g, hg, hgi⟩

theorem collectRemaining_spec (ex : List Bool) :
    ∀ (todo : Nat) (index : Int) (acc : List Int), 1 ≤ index →
      (index - 1).toNat + todo ≤ ex.length →
      ∃ L, collectRemaining ex todo index acc = some (acc ++ L) ∧ L.Pairwise (· < ·) ∧
        ∀ c : Int, c ∈ L ↔
          (index ≤ c ∧ c < index + todo ∧ ex[(c - 1).toNat]? ≠ some true) := by
  intro todo
  induction todo with
  | zero =>
    intro index acc _ _
    refine ⟨[], by simp [collectRemaining], List.Pairwise.nil, ?_⟩
    intro c
    simp only [List.not_mem_nil, false_iff]
    intro hc
    omega
  | succ todo ih =>
    intro index acc h1 hlen
    have hlt : (index - 1).toNat < ex.length := by omega
    obtain ⟨e, he⟩ : ∃ e, ex[(index - 1).toNat]? = some e :=
      ⟨ex[(index - 1).toNat], List.getElem?_eq_getElem hlt⟩
    have hidx : (index + 1 - 1).toNat + todo ≤ ex.length := by omega
    cases e with
    | true =>
      obtain ⟨L, hL, hp, hm⟩ := ih (index + 1) acc (by omega) hidx
      refine ⟨L, by rw [collectRemaining, he]; simpa using hL, hp, ?_⟩
      intro c
      rw [hm c]
      constructor
      · rintro ⟨a, b, d⟩
        exact ⟨by omega, by push_cast; omega, d⟩
      · rintro ⟨a, b, d⟩
        have hne : c ≠ index := by
          rintro rfl
          exact d he
        exact ⟨by omega, by push_cast at b; omega, d⟩
    | false =>
      obtain ⟨L, hL, hp, hm⟩ := ih (index + 1) (acc ++ [index]) (by omega) hidx
      refine ⟨index :: L, by rw [collectRemaining, he]; simpa using hL, ?_, ?_⟩
      · refine List.Pairwise.cons ?_ hp
        intro c hc
        have := (hm c).1 hc
        omega
      · intro c
        rw [List.mem_cons, hm c]
        constructor
        · rintro (rfl | ⟨a, b, d⟩)
          · exact ⟨le_refl _, by push_cast; omega, by rw [he]; decide⟩
          · exact ⟨by omega, by push_cast; omega, d⟩
        · rintro ⟨a, b, d⟩
          by_cases hne : c = index
          · exact Or.inl hne
          · exact Or.inr ⟨by omega, by push_cast at b; omega, d⟩

theorem getRemainingFeatures_spec (path : List DimensionFilter) (numFeatures : Int)
    (h0 : 0 ≤ numFeatures) (hmax : numFeatures ≤ (maxAlloc : Int))
    (hp : ∀ f ∈ path, 1 ≤ f.ColumnIndex ∧ f.ColumnIndex ≤ numFeatures) :
    ∃ r, getRemainingFeatures path numFeatures = some r ∧ r.Pairwise (· < ·) ∧
      ∀ c : Int, c ∈ r ↔ (1 ≤ c ∧ c ≤ numFeatures ∧ c ∉ columns path) := by
  obtain ⟨ex1, h1, h2, h3⟩ := markExists_spec path (List.replicate numFeatures.toNat false)
    (by
      intro f hf
      have := hp f hf
      simp only [List.length_replicate]
      omega)
  simp only [List.length_replicate] at h2 h3
  obtain ⟨L, hL, hpw, hm⟩ := collectRemaining_spec ex1 numFeatures.toNat 1 [] (le_refl _)
    (by simp [h2])
  refine ⟨L, ?_, hpw, ?_⟩
  · have hn : ¬ (numFeatures < 0 ∨ (maxAlloc : Int) < numFeatures) := by omega
    simp only [getRemainingFeatures, hn, if_false, h1, hL, List.nil_append]
  · intro c
    rw [hm c]
    constructor
    · rintro ⟨a, b, d⟩
      refine ⟨a, by omega, ?_⟩
      intro hc
      apply d
      rw [h3 (c - 1).toNat (by omega)]
      right
      simp only [columns, List.mem_map] at hc
      obtain ⟨f, hf, hfc⟩ := hc
      exact ⟨f, hf, by omega⟩
    · rintro ⟨a, b, d⟩
      refine ⟨a, by omega, ?_⟩
      intro hc
      apply d
      rw [h3 (c - 1).toNat (by omega)] at hc
      rcases hc with hc | ⟨f, hf, hfc⟩
      · rw [List.getElem?_replicate] at hc
        split at hc <;> simp at hc
      · simp only [columns, List.mem_map]
        exact ⟨f, hf, by omega⟩

/-- C1 as stated fails for `numFeatures = 1 << 62` and the empty path: `numFeatures >= 0`
and the path has no filter outside `1..numFeatures`, but `make([]bool, numFeatures)` panics
with a length out of range and `getRemainingFeatures` returns no list. -/
theorem getRemainingFeatures_huge_counterexample :
    (0 : Int) ≤ 4611686018427387904 ∧
    (∀ f ∈ ([] : List DimensionFilter),
      1 ≤ f.ColumnIndex ∧ f.ColumnIndex ≤ 4611686018427387904) ∧
    getRemainingFeatures [] 4611686018427387904 = none :=
  ⟨by decide, fun f hf => absurd hf (List.not_mem_nil f), by decide⟩

/-- C1, amended: for `0 <= numFeatures <= maxAlloc` (the largest length that `make` accepts)
and a path whose filters all have `ColumnIndex` in `1..numFeatures`, `getRemainingFeatures`
returns the strictly ascending, duplicate-free list of exactly the column indices in
`1..numFeatures` that no filter of the path carries; with `numFeatures = 4` and path
columns 2 and 4 the result is `[1, 3]`. -/
theorem getRemainingFeatures_ascending_absent :
    (∀ (path : List DimensionFilter) (numFeatures : Int), 0 ≤ numFeatures →
      numFeatures ≤ (maxAlloc : Int) →
      (∀ f ∈ path, 1 ≤ f.ColumnIndex ∧ f.ColumnIndex ≤ numFeatures) →
      ∃ r, getRemainingFeatures path numFeatures = some r ∧ r.Sorted (· < ·) ∧ r.Nodup ∧
        ∀ c : Int, c ∈ r ↔
          (1 ≤ c ∧ c ≤ numFeatures ∧ ∀ f ∈ path, f.ColumnIndex ≠ c)) ∧
    getRemainingFeatures [⟨2, "a"⟩, ⟨4, "b"⟩] 4 = some [1, 3] := by
  refine ⟨?_, by decide⟩
  intro path numFeatures h0 hmax hp
  obtain ⟨r, hr, hpw, hm⟩ := getRemainingFeatures_spec path numFeatures h0 hmax hp
  refine ⟨r, hr, hpw, hpw.imp (fun h => ne_of_lt h), ?_⟩
  intro c
  rw [hm c]
  simp only [columns, List.mem_map, not_exists, not_and]

theorem getRemainingFeatures_ascending_absent_witness :
    ∃ r, getRemainingFeatures [⟨3, "k"⟩, ⟨1, "m"⟩] 3 = some r ∧ r.Sorted (· < ·) ∧ r.Nodup ∧
      ∀ c : Int, c ∈ r ↔
        (1 ≤ c ∧ c ≤ 3 ∧ ∀ f ∈ ([⟨3, "k"⟩, ⟨1, "m"⟩] : List DimensionFilter),
          f.ColumnIndex ≠ c) :=
  getRemainingFeatures_ascending_absent.1 [⟨3, "k"⟩, ⟨1, "m"⟩] 3 (by decide) (by decide)
    (by decide)

/-! ## `getSchemaWidth` -/

/-- C8: `getSchemaWidth` panics exactly when the first unfiltered `Next` reports no row, and
otherwise returns the column count of that row; on an empty source it fails, so that it
returns no width there, neither zero nor any other, and every width it does return is the
length of a row that `Next` delivered. -/
theorem getSchemaWidth_fails_iff_no_row :
    (∀ next : List String × Bool, getSchemaWidth next = none ↔ next.2 = false) ∧
    (∀ next : List String × Bool, next.2 = true →
      getSchemaWidth next = some (next.1.length : Int)) ∧
    getSchemaWidth (firstNext []) = none ∧
    (∀ w : Int, getSchemaWidth (firstNext []) ≠ some w) ∧
    (∀ (rows : List (List String)) (w : Int), getSchemaWidth (firstNext rows) = some w →
      ∃ record rest, rows = record :: rest ∧ w = record.length) := by
  refine ⟨?_, ?_, rfl, ?_, ?_⟩
  · rintro ⟨record, success⟩
    cases success <;> simp [getSchemaWidth]
  · rintro ⟨record, success⟩ h
    simp only at h
    simp [getSchemaWidth, h]
  · intro w
    simp [getSchemaWidth, firstNext]
  · intro rows w h
    cases rows with
    | nil => simp [getSchemaWidth, firstNext] at h
    | cons record rest =>
      refine ⟨record, rest, rfl, ?_⟩
      simp only [getSchemaWidth, firstNext, if_true, Option.some.injEq] at h
      exact h.symm

theorem getSchemaWidth_fails_iff_no_row_witness :
    getSchemaWidth (["x", "p", "t"], true) = some 3 :=
  getSchemaWidth_fails_iff_no_row.2.1 (["x", "p", "t"], true) rfl

/-! ## Selection -/

theorem reduce_eq_select {σ : Type} (env : Env σ) (st : Store) (s : Slice) (rem : List Int) :
    ∀ b : Best σ, (rem.map (AddEvalTask env st s)).foldl reduceStep b =
      rem.foldl (selectStep env (st.read s)) b := by
  induction rem with
  | nil => intro b; rfl
  | cons c rest ih =>
    intro b
    simp only [List.map_cons, List.foldl_cons]
    rw [ih]
    rfl

theorem foldl_selectStep_spec {σ : Type} (env : Env σ) (features : List DimensionFilter)
    (rem : List Int) :
    ∀ b0 : Best σ, rem.Pairwise (· < ·) →
      (rem.foldl (selectStep env features) b0 = b0 ∧
        ∀ c ∈ rem, ¬ env.computeEntropy (env.BreakDownSubtreeDimension features c) <
          b0.bestEntropy) ∨
      ((rem.foldl (selectStep env features) b0).bestDimension ∈ rem ∧
        (rem.foldl (selectStep env features) b0).bestBreakdown =
          env.BreakDownSubtreeDimension features
            (rem.foldl (selectStep env features) b0).bestDimension ∧
        (rem.foldl (selectStep env features) b0).bestEntropy =
          env.computeEntropy (env.BreakDownSubtreeDimension features
            (rem.foldl (selectStep env features) b0).bestDimension) ∧
        (rem.foldl (selectStep env features) b0).bestEntropy < b0.bestEntropy ∧
        ∀ c ∈ rem,
          (rem.foldl (selectStep env features) b0).bestEntropy ≤
            env.computeEntropy (env.BreakDownSubtreeDimension features c) ∧
          (env.computeEntropy (env.BreakDownSubtreeDimension features c) =
              (rem.foldl (selectStep env features) b0).bestEntropy →
            (rem.foldl (selectStep env features) b0).bestDimension ≤ c)) := by
  induction rem with
  | nil =>
    intro b0 _
    exact Or.inl ⟨rfl, fun c hc => absurd hc (List.not_mem_nil c)⟩
  | cons c0 rest ih =>
    intro b0 hpw
    have hlt : ∀ c ∈ rest, c0 < c := (List.pairwise_cons.1 hpw).1
    have hrest := (List.pairwise_cons.1 hpw).2
    simp only [List.foldl_cons]
    by_cases h0 : env.computeEntropy (env.BreakDownSubtreeDimension features c0) < b0.bestEntropy
    · have hstep : selectStep env features b0 c0 =
          ⟨env.computeEntropy (env.BreakDownSubtreeDimension features c0),
            env.BreakDownSubtreeDimension features c0, c0⟩ := by
        simp only [selectStep, h0, if_true]
      rw [hstep]
      right
      rcases ih ⟨env.computeEntropy (env.BreakDownSubtreeDimension features c0),
          env.BreakDownSubtreeDimension features c0, c0⟩ hrest with ⟨he, hall⟩ | ⟨h1, h2, h3, h4, h5⟩
      · rw [he]
        refine ⟨List.mem_cons_self _ _, rfl, rfl, h0, ?_⟩
        intro c hc
        rcases List.mem_cons.1 hc with rfl | hc
        · exact ⟨le_refl _, fun _ => le_refl _⟩
        · exact ⟨not_lt.1 (hall c hc), fun _ => le_of_lt (hlt c hc)⟩
      · refine ⟨List.mem_cons_of_mem _ h1, h2, h3, lt_trans h4 h0, ?_⟩
        intro c hc
        rcases List.mem_cons.1 hc with rfl | hc
        · exact ⟨le_of_lt h4, fun hEq => absurd hEq (ne_of_gt h4)⟩
        · exact h5 c hc
    · have hstep : selectStep env features b0 c0 = b0 := by
        simp only [selectStep, h0, if_false]
      rw [hstep]
      rcases ih b0 hrest with ⟨he, hall⟩ | ⟨h1, h2, h3, h4, h5⟩
      · left
        refine ⟨he, ?_⟩
        intro c hc
        rcases List.mem_cons.1 hc with rfl | hc
        · exact h0
        · exact hall c hc
      · right
        refine ⟨List.mem_cons_of_mem _ h1, h2, h3, h4, ?_⟩
        intro c hc
        rcases List.mem_cons.1 hc with rfl | hc
        · have hle := not_lt.1 h0
          exact ⟨le_of_lt (lt_of_lt_of_le h4 hle),
            fun hEq => absurd (hEq ▸ hle) (not_le.2 h4)⟩
        · exact h5 c hc

/-- C2 as stated fails at the root of the one-feature data set `v,t` / `v,u`: the only
remaining column is 1, its entropy 1.0 lies in `[0,1]`, and the reduction loop selects no
column (`bestDimension` stays 0, which is not a remaining column). -/
theorem select_minimum_counterexample :
    (∀ (path : List DimensionFilter) (c : Int),
      0 ≤ envOne.computeEntropy (envOne.BreakDownSubtreeDimension path c) ∧
      envOne.computeEntropy (envOne.BreakDownSubtreeDimension path c) ≤ 1) ∧
    getRemainingFeatures (NewSequentialDecisionTreeBuilder.store.features 0) 1 = some [1] ∧
    (selectBest envOne (NewSequentialDecisionTreeBuilder.store.features 0) [1]).bestDimension
      ∉ [1] := by
  refine ⟨fun _ _ => ⟨by simp [envOne], by simp [envOne]⟩, by decide, by decide⟩

/-- C2, amended: for a path with columns in `1..numFeatures`, where `numFeatures` is within
the limit up to which `make` allocates (as it is at every frontier node, `numFeatures` being
the length of a record less one), whenever some remaining column
has entropy strictly below 1.0, the reduction loop of `DecisionTreeBuilderSeq.growTree`
selects a remaining column of minimum entropy together with its breakdown, and among the
remaining columns of that minimum entropy the smallest index; the reduction loop of
`AggregatorTask.execute` over the waited eval tasks yields the same selection. -/
theorem select_minimum_below_ceiling {σ : Type} (env : Env σ) (st : Store) (s : Slice)
    (numFeatures : Int) (h0 : 0 ≤ numFeatures) (hmax : numFeatures ≤ (maxAlloc : Int))
    (hp : ∀ f ∈ st.read s, 1 ≤ f.ColumnIndex ∧ f.ColumnIndex ≤ numFeatures)
    (hsome : ∃ c : Int, 1 ≤ c ∧ c ≤ numFeatures ∧ c ∉ columns (st.read s) ∧
      env.computeEntropy (env.BreakDownSubtreeDimension (st.read s) c) < 1) :
    ∃ rem, getRemainingFeatures (st.read s) numFeatures = some rem ∧
      (selectBest env (st.read s) rem).bestDimension ∈ rem ∧
      (selectBest env (st.read s) rem).bestBreakdown =
        env.BreakDownSubtreeDimension (st.read s) (selectBest env (st.read s) rem).bestDimension ∧
      (∀ c ∈ rem,
        env.computeEntropy (env.BreakDownSubtreeDimension (st.read s)
            (selectBest env (st.read s) rem).bestDimension) ≤
          env.computeEntropy (env.BreakDownSubtreeDimension (st.read s) c)) ∧
      (∀ c ∈ rem,
        env.computeEntropy (env.BreakDownSubtreeDimension (st.read s) c) =
          env.computeEntropy (env.BreakDownSubtreeDimension (st.read s)
            (selectBest env (st.read s) rem).bestDimension) →
        (selectBest env (st.read s) rem).bestDimension ≤ c) ∧
      ((rem.map (AddEvalTask env st s)).foldl reduceStep Best.init).bestDimension =
        (selectBest env (st.read s) rem).bestDimension ∧
      ((rem.map (AddEvalTask env st s)).foldl reduceStep Best.init).bestBreakdown =
        (selectBest env (st.read s) rem).bestBreakdown := by
  obtain ⟨rem, hrem, hpw, hm⟩ := getRemainingFeatures_spec (st.read s) numFeatures h0 hmax hp
  refine ⟨rem, hrem, ?_⟩
  obtain ⟨c, hc1, hc2, hc3, hc4⟩ := hsome
  have hcmem : c ∈ rem := (hm c).2 ⟨hc1, hc2, hc3⟩
  rw [reduce_eq_select]
  rcases foldl_selectStep_spec env (st.read s) rem Best.init hpw with ⟨_, hall⟩ | ⟨h1, h2, h3, _, h5⟩
  · exact absurd hc4 (hall c hcmem)
  · refine ⟨h1, h2, ?_, ?_, rfl, rfl⟩
    · intro d hd
      exact h3 ▸ (h5 d hd).1
    · intro d hd hEq
      exact (h5 d hd).2 (hEq.trans h3.symm)

theorem select_minimum_below_ceiling_witness :
    ∃ rem, getRemainingFeatures (NewSequentialDecisionTreeBuilder.store.read ⟨0, 0, 0⟩) 4 =
        some rem ∧
      (selectBest envFour (NewSequentialDecisionTreeBuilder.store.read ⟨0, 0, 0⟩)
        rem).bestDimension ∈ rem ∧
      (selectBest envFour (NewSequentialDecisionTreeBuilder.store.read ⟨0, 0, 0⟩)
          rem).bestBreakdown =
        envFour.BreakDownSubtreeDimension (NewSequentialDecisionTreeBuilder.store.read ⟨0, 0, 0⟩)
          (selectBest envFour (NewSequentialDecisionTreeBuilder.store.read ⟨0, 0, 0⟩)
            rem).bestDimension ∧
      (∀ c ∈ rem,
        envFour.computeEntropy (envFour.BreakDownSubtreeDimension
            (NewSequentialDecisionTreeBuilder.store.read ⟨0, 0, 0⟩)
            (selectBest envFour (NewSequentialDecisionTreeBuilder.store.read ⟨0, 0, 0⟩)
              rem).bestDimension) ≤
          envFour.computeEntropy (envFour.BreakDownSubtreeDimension
            (NewSequentialDecisionTreeBuilder.store.read ⟨0, 0, 0⟩) c)) ∧
      (∀ c ∈ rem,
        envFour.computeEntropy (envFour.BreakDownSubtreeDimension
            (NewSequentialDecisionTreeBuilder.store.read ⟨0, 0, 0⟩) c) =
          envFour.computeEntropy (envFour.BreakDownSubtreeDimension
            (NewSequentialDecisionTreeBuilder.store.read ⟨0, 0, 0⟩)
            (selectBest envFour (NewSequentialDecisionTreeBuilder.store.read ⟨0, 0, 0⟩)
              rem).bestDimension) →
        (selectBest envFour (NewSequentialDecisionTreeBuilder.store.read ⟨0, 0, 0⟩)
          rem).bestDimension ≤ c) ∧
      ((rem.map (AddEvalTask envFour NewSequentialDecisionTreeBuilder.store ⟨0, 0, 0⟩)).foldl
          reduceStep Best.init).bestDimension =
        (selectBest envFour (NewSequentialDecisionTreeBuilder.store.read ⟨0, 0, 0⟩)
          rem).bestDimension ∧
      ((rem.map (AddEvalTask envFour NewSequentialDecisionTreeBuilder.store ⟨0, 0, 0⟩)).foldl
          reduceStep Best.init).bestBreakdown =
        (selectBest envFour (NewSequentialDecisionTreeBuilder.store.read ⟨0, 0, 0⟩)
          rem).bestBreakdown :=
  select_minimum_below_ceiling envFour NewSequentialDecisionTreeBuilder.store ⟨0, 0, 0⟩ 4
    (by decide) (by decide) (by decide) ⟨1, by decide, by decide, by decide, by simp [envFour]⟩

/-! ## `append` on a shared backing array -/

theorem take_set_le {α : Type} (l : List α) (a : α) {n m : Nat} (h : m ≤ n) :
    (l.set n a).take m = l.take m := by
  apply List.ext_getElem?
  intro i
  rw [List.getElem?_take, List.getElem?_take]
  split
  · rw [List.getElem?_set_ne (by omega)]
  · rfl

theorem take_succ_set {α : Type} (l : List α) (a : α) {n : Nat} (h : n < l.length) :
    (l.set n a).take (n + 1) = l.take n ++ [a] := by
  rw [List.take_succ, take_set_le l a (le_refl n), List.getElem?_set, if_pos rfl, if_pos h]
  rfl

theorem Store.read_length {st : Store} {s : Slice} (h : st.Backed s) :
    (st.read s).length = s.len := by
  obtain ⟨a, ha, hl, hc⟩ := h
  simp only [Store.read, ha, Option.getD_some, List.length_take]
  omega

theorem appendFilter_spec (g : Nat → Nat → Nat) (st : Store) (s : Slice) (f : DimensionFilter)
    (hs : st.Backed s) :
    AppendSpec st (appendFilter g st s f).1 s (appendFilter g st s f).2 f := by
  obtain ⟨a, ha, hl, hc⟩ := hs
  have harr : s.arr < st.arrays.length := by
    rcases List.getElem?_eq_some.1 ha with ⟨h, _⟩
    exact h
  by_cases hlt : s.len < s.cap
  · have hdef : appendFilter g st s f =
        ({ st with arrays := st.arrays.set s.arr (a.set s.len f) }, { s with len := s.len + 1 }) := by
      simp only [appendFilter, hlt, if_true, ha, Option.getD_some]
    rw [hdef]
    have hget : ∀ j : Nat, (st.arrays.set s.arr (a.set s.len f))[j]? =
        if s.arr = j then some (a.set s.len f) else st.arrays[j]? := by
      intro j
      rw [List.getElem?_set]
      by_cases hj : s.arr = j
      · rw [if_pos hj, if_pos hj, if_pos harr]
      · rw [if_neg hj, if_neg hj]
    refine ⟨rfl, rfl, ⟨a.set s.len f, ?_, ?_, ?_⟩, ?_, ?_, ?_, ?_,
      fun h => absurd hlt h⟩
    · simp only [hget, if_true]
    · simpa using hl
    · exact hlt
    · simp only [Store.read, hget, if_true, Option.getD_some, ha]
      exact take_succ_set a f (by omega)
    · rintro t ⟨b, hb, hbl, hbc⟩
      by_cases hj : s.arr = t.arr
      · have hgt : (st.arrays.set s.arr (a.set s.len f))[t.arr]? = some (a.set s.len f) := by
          rw [hget, if_pos hj]
        have hab : a = b := by
          rw [hj, hb] at ha
          exact (Option.some.inj ha).symm
        refine ⟨a.set s.len f, hgt, ?_, hbc⟩
        rw [List.length_set, hab]
        exact hbl
      · have hgt : (st.arrays.set s.arr (a.set s.len f))[t.arr]? = st.arrays[t.arr]? := by
          rw [hget, if_neg hj]
        exact ⟨b, hgt.trans hb, hbl, hbc⟩
    · rintro t ⟨b, hb, hbl, hbc⟩
      by_cases hj : s.arr = t.arr
      · have hgt : (st.arrays.set s.arr (a.set s.len f))[t.arr]? = some (a.set s.len f) := by
          rw [hget, if_pos hj]
        have hab : a = b := by
          rw [hj, hb] at ha
          exact (Option.some.inj ha).symm
        simp only [Store.read, hgt, Option.getD_some, hb, List.take_take]
        rw [← hab]
        exact take_set_le _ _ (Nat.min_le_left _ _)
      · have hgt : (st.arrays.set s.arr (a.set s.len f))[t.arr]? = st.arrays[t.arr]? := by
          rw [hget, if_neg hj]
        simp only [Store.read, hgt]
    · rintro t ⟨b, hb, hbl, hbc⟩ hle
      by_cases hj : s.arr = t.arr
      · have hgt : (st.arrays.set s.arr (a.set s.len f))[t.arr]? = some (a.set s.len f) := by
          rw [hget, if_pos hj]
        have hab : a = b := by
          rw [hj, hb] at ha
          exact (Option.some.inj ha).symm
        by_cases hk : t.len ≤ s.len
        · left
          simp only [Store.read, hgt, Option.getD_some, hb]
          rw [← hab]
          exact take_set_le _ _ hk
        · right
          have hk1 : t.len = s.len + 1 := by omega
          simp only [Store.read, hgt, Option.getD_some, ha, hk1]
          exact take_succ_set _ _ (by omega)
      · left
        have hgt : (st.arrays.set s.arr (a.set s.len f))[t.arr]? = st.arrays[t.arr]? := by
          rw [hget, if_neg hj]
        simp only [Store.read, hgt]
  · have hlen : (st.read s).length = s.len := Store.read_length ⟨a, ha, hl, hc⟩
    have hdef : appendFilter g st s f =
        ({ st with arrays := st.arrays ++
            [st.read s ++ f :: List.replicate (g s.cap (s.len + 1) - (s.len + 1))
              DimensionFilter.zero] },
          ⟨st.arrays.length, s.len + 1,
            (st.read s ++ f :: List.replicate (g s.cap (s.len + 1) - (s.len + 1))
              DimensionFilter.zero).length⟩) := by
      simp only [appendFilter, hlt, if_false]
    rw [hdef]
    have hold : ∀ t : Slice, st.Backed t →
        (st.arrays ++ [st.read s ++ f :: List.replicate (g s.cap (s.len + 1) - (s.len + 1))
          DimensionFilter.zero])[t.arr]? = st.arrays[t.arr]? := by
      rintro t ⟨b, hb, _, _⟩
      rcases List.getElem?_eq_some.1 hb with ⟨h, _⟩
      exact List.getElem?_append_left h
    refine ⟨rfl, rfl, ⟨_, List.getElem?_concat_length _ _, rfl, ?_⟩, ?_, ?_, ?_, ?_, ?_⟩
    · simp only [List.length_append, List.length_cons, hlen]
      omega
    · simp only [Store.read, List.getElem?_concat_length, Option.getD_some]
      have h1 : st.read s ++ f :: List.replicate (g s.cap (s.len + 1) - (s.len + 1))
          DimensionFilter.zero = (st.read s ++ [f]) ++
            List.replicate (g s.cap (s.len + 1) - (s.len + 1)) DimensionFilter.zero := by
        simp
      have h2 : (st.read s ++ [f]).length = s.len + 1 := by simp [hlen]
      have h3 := @List.take_left' _ (st.read s ++ [f])
        (List.replicate (g s.cap (s.len + 1) - (s.len + 1)) DimensionFilter.zero) _ h2
      simp only [Store.read, ha, Option.getD_some] at h1 h3 ⊢
      rw [h1, h3]
    · intro t ht
      obtain ⟨b, hb, hbl, hbc⟩ := ht
      exact ⟨b, (hold t ⟨b, hb, hbl, hbc⟩).trans hb, hbl, hbc⟩
    · intro t ht
      have h := hold t ht
      simp only [Store.read] at h ⊢
      rw [h]
    · intro t ht _
      left
      have h := hold t ht
      simp only [Store.read] at h ⊢
      rw [h]
    · intro _ t ht
      have h := hold t ht
      simp only [Store.read] at h ⊢
      rw [h]

theorem AppendSpec.stable {st st1 : Store} {s s1 : Slice} {f : DimensionFilter}
    (h : AppendSpec st st1 s s1 f) (t : Slice) (ht : st.Backed t) (hle : t.len ≤ s.len) :
    st1.read t = st.read t := by
  have h1 := h.take_old t ht
  rwa [List.take_of_length_le (by rw [Store.read_length (h.backed_old t ht)]; exact hle),
    List.take_of_length_le (by rw [Store.read_length ht]; exact hle)] at h1

theorem GoodPath.snoc {numFeatures : Int} {base : List DimensionFilter} {d : Int} (v : String)
    (hb : GoodPath numFeatures base) (h1 : 1 ≤ d) (h2 : d ≤ numFeatures)
    (h3 : d ∉ columns base) : GoodPath numFeatures (base ++ [⟨d, v⟩]) := by
  refine ⟨?_, ?_⟩
  · simp only [columns, List.map_append, List.map_cons, List.map_nil]
    rw [List.nodup_append]
    refine ⟨hb.1, List.nodup_singleton _, ?_⟩
    intro a ha hb2
    rw [List.mem_singleton] at hb2
    subst hb2
    exact h3 ha
  · intro f hf
    rcases List.mem_append.1 hf with hf | hf
    · exact hb.2 f hf
    · rw [List.mem_singleton] at hf
      subst hf
      exact ⟨h1, h2⟩

theorem addChild_eq {σ : Type} (env : Env σ) (leaf : Nat) (d : Int) (st : Store)
    (nl : List Nat) (v : String) (lf : DecisionTreeNode) (hleaf : st.nodes[leaf]? = some lf)
    (hb : st.Backed lf.Features) :
    addChild env leaf d (st, nl) v =
      some (⟨(appendFilter env.growCap st lf.Features ⟨d, v⟩).1.arrays,
          (st.nodes ++ [DecisionTreeNode.mk
            (appendFilter env.growCap st lf.Features ⟨d, v⟩).2 []]).set leaf
            ⟨lf.Features, lf.Children ++ [st.nodes.length]⟩⟩,
        nl ++ [st.nodes.length]) := by
  have hn := (appendFilter_spec env.growCap st lf.Features ⟨d, v⟩ hb).nodes_eq
  have hlt : leaf < st.nodes.length := (List.getElem?_eq_some.1 hleaf).1
  have h2 : (st.nodes ++ [(⟨(appendFilter env.growCap st lf.Features ⟨d, v⟩).2, []⟩ :
      DecisionTreeNode)])[leaf]? = some lf := by
    rw [List.getElem?_append_left hlt]
    exact hleaf
  simp only [addChild, hleaf, appendChild, hn, h2]

theorem nodes_after_addChild (nodes : List DecisionTreeNode) (leaf : Nat)
    (lf1 nw : DecisionTreeNode) (hlt : leaf < nodes.length) (n : Nat) :
    ((nodes ++ [nw]).set leaf lf1)[n]? =
      if n = leaf then some lf1 else if n = nodes.length then some nw else nodes[n]? := by
  rw [List.getElem?_set]
  by_cases h1 : leaf = n
  · subst h1
    rw [if_pos rfl, if_pos rfl, if_pos (by simp; omega)]
  · rw [if_neg h1, if_neg (fun h => h1 h.symm)]
    by_cases h2 : n = nodes.length
    · rw [if_pos h2, h2]
      exact List.getElem?_concat_length _ _
    · rw [if_neg h2]
      by_cases h3 : n < nodes.length
      · exact List.getElem?_append_left h3
      · rw [List.getElem?_eq_none (by simp; omega), List.getElem?_eq_none (by omega)]

theorem addChild_spec {σ : Type} (env : Env σ) (numFeatures : Int) (k : Nat) (leaf : Nat)
    (d : Int) (st : Store) (nl : List Nat) (v : String) (lf : DecisionTreeNode)
    (hinv : Inv numFeatures (k + 1) st) (hleaf : st.nodes[leaf]? = some lf)
    (hk : lf.Features.len = k) (h1 : 1 ≤ d) (h2 : d ≤ numFeatures)
    (h3 : d ∉ columns (st.read lf.Features)) :
    ∃ st1, addChild env leaf d (st, nl) v = some (st1, nl ++ [st.nodes.length]) ∧
      Inv numFeatures (k + 1) st1 ∧
      Grown k (st.read lf.Features) d [v] st st1 leaf [st.nodes.length] := by
  have hb := hinv.backed leaf lf hleaf
  have spec := appendFilter_spec env.growCap st lf.Features ⟨d, v⟩ hb
  have hlt : leaf < st.nodes.length := (List.getElem?_eq_some.1 hleaf).1
  refine ⟨_, addChild_eq env leaf d st nl v lf hleaf hb, ?_, ?_⟩
  all_goals
    generalize hap : appendFilter env.growCap st lf.Features ⟨d, v⟩ = ap at spec ⊢
    have hnodes := nodes_after_addChild st.nodes leaf
      ⟨lf.Features, lf.Children ++ [st.nodes.length]⟩ ⟨ap.2, []⟩ hlt
    have hgood0 := hinv.good leaf lf hleaf
    have hcase : ∀ (n : Nat) (nd1 : DecisionTreeNode),
        ((st.nodes ++ [DecisionTreeNode.mk ap.2 []]).set leaf
          ⟨lf.Features, lf.Children ++ [st.nodes.length]⟩)[n]? = some nd1 →
        (n = st.nodes.length ∧ nd1 = ⟨ap.2, []⟩) ∨
        (∃ nd, st.nodes[n]? = some nd ∧ nd1.Features = nd.Features ∧
          nd1.Children = if n = leaf then nd.Children ++ [st.nodes.length] else nd.Children) := by
      intro n nd1 hn
      rw [hnodes] at hn
      by_cases e1 : n = leaf
      · rw [if_pos e1] at hn
        right
        refine ⟨lf, e1 ▸ hleaf, ?_, ?_⟩
        · rw [← Option.some.inj hn]
        · rw [← Option.some.inj hn, if_pos e1]
      · rw [if_neg e1] at hn
        by_cases e2 : n = st.nodes.length
        · rw [if_pos e2] at hn
          exact Or.inl ⟨e2, (Option.some.inj hn).symm⟩
        · rw [if_neg e2] at hn
          exact Or.inr ⟨nd1, hn, rfl, by rw [if_neg e1]⟩
    have hold : ∀ (n : Nat) (nd : DecisionTreeNode), st.nodes[n]? = some nd →
        ((st.nodes ++ [DecisionTreeNode.mk ap.2 []]).set leaf
          ⟨lf.Features, lf.Children ++ [st.nodes.length]⟩)[n]? =
        some ⟨nd.Features,
          if n = leaf then nd.Children ++ [st.nodes.length] else nd.Children⟩ := by
      intro n nd hn
      rw [hnodes]
      by_cases e1 : n = leaf
      · rw [if_pos e1, if_pos e1]
        rw [e1, hleaf] at hn
        rw [← Option.some.inj hn]
      · rw [if_neg e1, if_neg e1]
        have : n ≠ st.nodes.length := ne_of_lt (List.getElem?_eq_some.1 hn).1
        rw [if_neg this, hn]
  · constructor
    · intro n nd1 hn
      rcases hcase n nd1 hn with ⟨_, rfl⟩ | ⟨nd, hnd, hf, _⟩
      · exact spec.backed_new
      · rw [hf]
        exact spec.backed_old _ (hinv.backed n nd hnd)
    · intro n nd1 hn
      rcases hcase n nd1 hn with ⟨_, rfl⟩ | ⟨nd, hnd, hf, _⟩
      · show ap.2.len ≤ k + 1
        rw [spec.len_eq, hk]
      · rw [hf]
        exact hinv.depth n nd hnd
    · intro n nd1 hn
      rcases hcase n nd1 hn with ⟨_, rfl⟩ | ⟨nd, hnd, hf, _⟩
      · show GoodPath numFeatures (ap.1.read ap.2)
        rw [spec.read_new]
        exact hgood0.snoc v h1 h2 h3
      · rw [hf]
        show GoodPath numFeatures (ap.1.read nd.Features)
        rcases spec.read_old nd.Features (hinv.backed n nd hnd)
          (by rw [hk]; exact hinv.depth n nd hnd) with h | h
        · rw [h]
          exact hinv.good n nd hnd
        · rw [h]
          exact hgood0.snoc v h1 h2 h3
    · intro n nd1 hn c hc
      rcases hcase n nd1 hn with ⟨_, rfl⟩ | ⟨nd, hnd, hf, hch⟩
      · exact absurd hc (List.not_mem_nil c)
      · have hndk : ∀ cd : DecisionTreeNode, cd.Features.len = nd.Features.len + 1 →
            cd.Features.len ≤ k + 1 → nd.Features.len ≤ k := by
          intro cd e1 e2
          omega
        have holdchild : c ∈ nd.Children →
            ∃ cd : DecisionTreeNode,
              ((st.nodes ++ [DecisionTreeNode.mk ap.2 []]).set leaf
                ⟨lf.Features, lf.Children ++ [st.nodes.length]⟩)[c]? = some cd ∧
              cd.Features.len = nd1.Features.len + 1 ∧
              (ap.1.read cd.Features).take nd1.Features.len = ap.1.read nd1.Features := by
          intro hcin
          obtain ⟨cd, hcd, hlen, htake⟩ := hinv.edge n nd hnd c hcin
          have hle := hndk cd hlen (hinv.depth c cd hcd)
          refine ⟨_, hold c cd hcd, by rw [hf]; exact hlen, ?_⟩
          rw [hf]
          show (ap.1.read cd.Features).take nd.Features.len = ap.1.read nd.Features
          rw [spec.stable nd.Features (hinv.backed n nd hnd) (by rw [hk]; exact hle)]
          have h4 := spec.take_old cd.Features (hinv.backed c cd hcd)
          rw [hk] at h4
          have h5 : nd.Features.len = min nd.Features.len k := by omega
          rw [h5, ← List.take_take, h4, List.take_take, ← h5]
          exact htake
        by_cases e1 : n = leaf
        · rw [hch, if_pos e1] at hc
          rcases List.mem_append.1 hc with hc | hc
          · exact holdchild hc
          · rw [List.mem_singleton] at hc
            subst hc
            have hndlf : nd = lf := by
              rw [e1, hleaf] at hnd
              exact (Option.some.inj hnd).symm
            subst hndlf
            refine ⟨⟨ap.2, []⟩, ?_, ?_, ?_⟩
            · rw [hnodes, if_neg (ne_of_gt hlt), if_pos rfl]
            · rw [hf]
              exact spec.len_eq
            · rw [hf]
              show (ap.1.read ap.2).take nd.Features.len = ap.1.read nd.Features
              rw [spec.read_new, spec.stable nd.Features hb (le_refl _)]
              exact List.take_left' (Store.read_length hb)
        · rw [hch, if_neg e1] at hc
          exact holdchild hc
  · constructor
    · intro n nd hn
      exact hold n nd hn
    · rfl
    · simp
    · intro n nd1 hn hge
      rcases hcase n nd1 hn with ⟨_, rfl⟩ | ⟨nd, hnd, _, _⟩
      · refine ⟨by show ap.2.len = k + 1; rw [spec.len_eq, hk], rfl, v,
          List.mem_singleton.2 rfl, ?_⟩
        exact spec.read_new
      · have := (List.getElem?_eq_some.1 hnd).1
        omega
    · intro t ht hle
      exact spec.stable t ht (by rw [hk]; exact hle)
    · intro t ht hle
      rcases spec.read_old t ht (by rw [hk]; exact hle) with h | h
      · exact Or.inl h
      · exact Or.inr ⟨v, List.mem_singleton.2 rfl, h⟩
    · intro t ht
      exact spec.backed_old t ht
    · intro lf2 hlf2 hcap t ht
      rw [hleaf] at hlf2
      have := Option.some.inj hlf2
      subst this
      exact spec.alloc (by omega) t ht
    · intro lf2 hlf2 hcap i w hw
      cases i with
      | zero =>
        simp only [List.getElem?_cons_zero, Option.some.injEq] at hw
        subst hw
        refine ⟨⟨ap.2, []⟩, ?_, spec.read_new⟩
        rw [Nat.add_zero, hnodes, if_neg (ne_of_gt hlt), if_pos rfl]
      | succ j => simp at hw

theorem Grown.refl (k : Nat) (base : List DimensionFilter) (d : Int) (st : Store) (leaf : Nat) :
    Grown k base d [] st st leaf [] := by
  constructor
  · intro n nd hn
    rw [hn]
    by_cases e : n = leaf
    · rw [if_pos e, List.append_nil]
    · rw [if_neg e]
  · rfl
  · rfl
  · intro n nd hn hge
    have := (List.getElem?_eq_some.1 hn).1
    omega
  · intro _ _ _
    rfl
  · intro _ _ _
    exact Or.inl rfl
  · intro _ h
    exact h
  · intro _ _ _ _ _
    rfl
  · intro _ _ _ i v hv
    simp at hv

theorem addChildren_spec {σ : Type} (env : Env σ) (numFeatures : Int) (k : Nat) (leaf : Nat)
    (d : Int) (h1 : 1 ≤ d) (h2 : d ≤ numFeatures) (keys : List String) :
    ∀ (st : Store) (nl : List Nat) (lf : DecisionTreeNode),
      Inv numFeatures (k + 1) st → st.nodes[leaf]? = some lf → lf.Features.len = k →
      d ∉ columns (st.read lf.Features) →
      ∃ st1, addChildren env leaf d keys (st, nl) =
          some (st1, nl ++ List.range' st.nodes.length keys.length) ∧
        Inv numFeatures (k + 1) st1 ∧
        Grown k (st.read lf.Features) d keys st st1 leaf
          (List.range' st.nodes.length keys.length) := by
  induction keys with
  | nil =>
    intro st nl lf hinv _ _ _
    exact ⟨st, by simp [addChildren], hinv, Grown.refl _ _ _ _ _⟩
  | cons v rest ih =>
    intro st nl lf hinv hleaf hk h3
    obtain ⟨st1, he1, hinv1, g1⟩ :=
      addChild_spec env numFeatures k leaf d st nl v lf hinv hleaf hk h1 h2 h3
    have hb := hinv.backed leaf lf hleaf
    have hleaf1 := g1.old leaf lf hleaf
    rw [if_pos rfl] at hleaf1
    have hbase : st1.read lf.Features = st.read lf.Features :=
      g1.stable lf.Features hb (le_of_eq hk)
    have hlen1 : st1.nodes.length = st.nodes.length + 1 := g1.length
    obtain ⟨st2, he2, hinv2, g2⟩ := ih st1 (nl ++ [st.nodes.length])
      ⟨lf.Features, lf.Children ++ [st.nodes.length]⟩ hinv1 hleaf1 hk (by rw [hbase]; exact h3)
    simp only [hbase] at g2
    have hrange : List.range' st.nodes.length (v :: rest).length =
        st.nodes.length :: List.range' st1.nodes.length rest.length := by
      rw [hlen1]
      rfl
    have hlt : leaf < st.nodes.length := (List.getElem?_eq_some.1 hleaf).1
    refine ⟨st2, ?_, hinv2, ?_⟩
    · simp only [addChildren, he1, he2, hrange, List.append_assoc, List.singleton_append]
    · rw [hrange]
      constructor
      · intro n nd hn
        have h4 := g2.old n _ (g1.old n nd hn)
        rw [h4]
        by_cases e : n = leaf
        · simp only [if_pos e, List.append_assoc, List.singleton_append]
        · simp only [if_neg e]
      · rw [← hrange]
      · rw [g2.length, hlen1, List.length_cons]
        omega
      · intro n nd2 hn hge
        by_cases e : st1.nodes.length ≤ n
        · obtain ⟨a, b, w, hw, c⟩ := g2.fresh n nd2 hn e
          exact ⟨a, b, w, List.mem_cons_of_mem _ hw, c⟩
        · have hn1 : n < st1.nodes.length := by omega
          obtain ⟨nd1, hnd1⟩ : ∃ nd1, st1.nodes[n]? = some nd1 :=
            ⟨_, List.getElem?_eq_getElem hn1⟩
          obtain ⟨a, b, w, hw, c⟩ := g1.fresh n nd1 hnd1 hge
          have h4 := g2.old n nd1 hnd1
          rw [if_neg (by omega : n ≠ leaf), hn] at h4
          have h5 := Option.some.inj h4
          subst h5
          refine ⟨a, b, ?_⟩
          rcases g2.reread nd1.Features (hinv1.backed n nd1 hnd1) (le_of_eq a) with h | ⟨u, hu, h⟩
          · rw [List.mem_singleton] at hw
            subst hw
            exact ⟨w, List.mem_cons_self _ _, h.trans c⟩
          · exact ⟨u, List.mem_cons_of_mem _ hu, h⟩
      · intro t ht hle
        rw [g2.stable t (g1.backed t ht) hle, g1.stable t ht hle]
      · intro t ht hle
        rcases g2.reread t (g1.backed t ht) hle with h | ⟨u, hu, h⟩
        · rcases g1.reread t ht hle with h6 | ⟨u, hu, h6⟩
          · exact Or.inl (h.trans h6)
          · rw [List.mem_singleton] at hu
            subst hu
            exact Or.inr ⟨u, List.mem_cons_self _ _, h.trans h6⟩
        · exact Or.inr ⟨u, List.mem_cons_of_mem _ hu, h⟩
      · intro t ht
        exact g2.backed t (g1.backed t ht)
      · intro lf2 hlf2 hcap t ht
        rw [g2.alloc _ hleaf1 (by rw [hleaf] at hlf2; rw [Option.some.inj hlf2]; exact hcap)
          t (g1.backed t ht), g1.alloc lf2 hlf2 hcap t ht]
      · intro lf2 hlf2 hcap i w hw
        have hcap1 : lf.Features.cap = k := by
          rw [hleaf] at hlf2
          rw [Option.some.inj hlf2]
          exact hcap
        cases i with
        | zero =>
          simp only [List.getElem?_cons_zero, Option.some.injEq] at hw
          subst hw
          obtain ⟨nd1, hnd1, hread1⟩ := g1.exact lf2 hlf2 hcap 0 v rfl
          refine ⟨_, g2.old _ nd1 hnd1, ?_⟩
          show st2.read nd1.Features = _
          rw [g2.alloc _ hleaf1 hcap1 nd1.Features (hinv1.backed _ nd1 hnd1)]
          exact hread1
        | succ j =>
          simp only [List.getElem?_cons_succ] at hw
          obtain ⟨nd2, hnd2, hread2⟩ := g2.exact _ hleaf1 hcap1 j w hw
          refine ⟨nd2, ?_, hread2⟩
          rw [← hnd2, hlen1]
          congr 1
          omega

/-! ## One leaf, one level -/

theorem Inv.mono {numFeatures : Int} {m : Nat} {st : Store} (h : Inv numFeatures m st) :
    Inv numFeatures (m + 1) st :=
  ⟨h.backed, fun n nd hn => Nat.le_succ_of_le (h.depth n nd hn), h.good, h.edge⟩

theorem growLeaf_spec {σ : Type} (env : Env σ) (numFeatures : Int) (h0 : 0 ≤ numFeatures)
    (hmax : numFeatures ≤ (maxAlloc : Int))
    (k : Nat) (leaf : Nat) (st : Store) (nl : List Nat) (lf : DecisionTreeNode)
    (hinv : Inv numFeatures (k + 1) st) (hleaf : st.nodes[leaf]? = some lf)
    (hk : lf.Features.len = k) :
    ∃ st1 new, growLeaf env numFeatures (st, nl) leaf = some (st1, nl ++ new) ∧
      Inv numFeatures (k + 1) st1 ∧ LeafGrown env numFeatures k st st1 leaf new := by
  have hgood := hinv.good leaf lf hleaf
  obtain ⟨rem, hrem, hpw, hm⟩ :=
    getRemainingFeatures_spec (st.read lf.Features) numFeatures h0 hmax hgood.2
  have hdef : growLeaf env numFeatures (st, nl) leaf =
      addChildren env leaf (selectBest env (st.read lf.Features) rem).bestDimension
        ((selectBest env (st.read lf.Features) rem).bestBreakdown.Distribution.map Prod.fst)
        (st, nl) := by
    simp only [growLeaf, hleaf, hrem]
  rw [hdef]
  rcases foldl_selectStep_spec env (st.read lf.Features) rem Best.init hpw with
    ⟨he, _⟩ | ⟨h1, _, _, _, _⟩
  · have hsel : selectBest env (st.read lf.Features) rem = Best.init := he
    refine ⟨st, [], ?_, hinv, lf, rem, hinv, hinv, hleaf, hk, hrem, ?_⟩
    · rw [hsel]
      simp [Best.init, DimensionBreakdown.zero, addChildren]
    · rw [hsel]
      exact Grown.refl _ _ _ _ _
  · have hd := (hm _).1 h1
    obtain ⟨st1, he, hinv1, g⟩ := addChildren_spec env numFeatures k leaf
      (selectBest env (st.read lf.Features) rem).bestDimension hd.1 hd.2.1
      ((selectBest env (st.read lf.Features) rem).bestBreakdown.Distribution.map Prod.fst)
      st nl lf hinv hleaf hk hd.2.2
    exact ⟨st1, _, he, hinv1, lf, rem, hinv, hinv1, hleaf, hk, hrem, g⟩

theorem growLeaves_spec {σ : Type} (env : Env σ) (numFeatures : Int) (h0 : 0 ≤ numFeatures)
    (hmax : numFeatures ≤ (maxAlloc : Int))
    (k : Nat) (todo : List Nat) :
    ∀ (st : Store) (nl : List Nat), Inv numFeatures (k + 1) st →
      (∀ l ∈ todo, ∃ lf : DecisionTreeNode, st.nodes[l]? = some lf ∧ lf.Features.len = k) →
      ∃ st1 new, growLeaves env numFeatures todo (st, nl) = some (st1, nl ++ new) ∧
        Inv numFeatures (k + 1) st1 ∧ LevelGrown env numFeatures k todo st st1 new := by
  induction todo with
  | nil =>
    intro st nl hinv _
    exact ⟨st, [], by simp [growLeaves], hinv, LevelGrown.nil st⟩
  | cons leaf rest ih =>
    intro st nl hinv hfr
    obtain ⟨lf, hleaf, hk⟩ := hfr leaf (List.mem_cons_self _ _)
    obtain ⟨st1, new, he1, hinv1, g1⟩ :=
      growLeaf_spec env numFeatures h0 hmax k leaf st nl lf hinv hleaf hk
    obtain ⟨st2, new2, he2, hinv2, g2⟩ := ih st1 (nl ++ new) hinv1 (by
      intro l hl
      obtain ⟨nd, hnd, hlen⟩ := hfr l (List.mem_cons_of_mem _ hl)
      obtain ⟨_, _, _, _, _, _, _, g⟩ := g1
      exact ⟨_, g.old l nd hnd, hlen⟩)
    refine ⟨st2, new ++ new2, ?_, hinv2, LevelGrown.cons g1 g2⟩
    simp only [growLeaves, he1, he2, List.append_assoc]

theorem LevelGrown.facts {σ : Type} {env : Env σ} {numFeatures : Int} {k : Nat}
    {todo : List Nat} {st st1 : Store} {new : List Nat}
    (h : LevelGrown env numFeatures k todo st st1 new) :
    (∀ l ∈ todo, l < st.nodes.length) →
    st.nodes.length ≤ st1.nodes.length ∧
    (∀ (n : Nat) (nd : DecisionTreeNode), st.nodes[n]? = some nd →
      ∃ nd1 : DecisionTreeNode, st1.nodes[n]? = some nd1 ∧ nd1.Features = nd.Features ∧
        (n ∉ todo → nd1.Children = nd.Children) ∧ (nd.Children ≠ [] → nd1.Children ≠ [])) ∧
    (∀ (n : Nat) (nd1 : DecisionTreeNode), st1.nodes[n]? = some nd1 → st.nodes.length ≤ n →
      n ∈ new ∧ nd1.Features.len = k + 1 ∧ nd1.Children = []) ∧
    (∀ n ∈ new, st.nodes.length ≤ n ∧ n < st1.nodes.length) := by
  induction h with
  | nil st =>
    intro _
    refine ⟨le_refl _, fun n nd hn => ⟨nd, hn, rfl, fun _ => rfl, fun h => h⟩, ?_, ?_⟩
    · intro n nd1 hn hge
      have := (List.getElem?_eq_some.1 hn).1
      omega
    · intro n hn
      exact absurd hn (List.not_mem_nil n)
  | @cons leaf rest st st1 st2 new newRest hleaf _ ih =>
    intro hvalid
    obtain ⟨lf, rem, _, _, hlf, _, _, g⟩ := hleaf
    have hlen1 : st.nodes.length ≤ st1.nodes.length := by
      rw [g.length]
      omega
    obtain ⟨i1, i2, i3, i4⟩ := ih (fun l hl =>
      lt_of_lt_of_le (hvalid l (List.mem_cons_of_mem _ hl)) hlen1)
    have hnew : ∀ n, n ∈ new ↔ st.nodes.length ≤ n ∧ n < st1.nodes.length := by
      intro n
      rw [g.new_eq, List.mem_range'_1, g.length]
    refine ⟨le_trans hlen1 i1, ?_, ?_, ?_⟩
    · intro n nd hn
      obtain ⟨nd2, a, b, c, d⟩ := i2 n _ (g.old n nd hn)
      refine ⟨nd2, a, b, ?_, ?_⟩
      · intro hnot
        rw [c (fun h => hnot (List.mem_cons_of_mem _ h))]
        rw [if_neg (fun (h : n = leaf) => hnot (by rw [h]; exact List.mem_cons_self _ _))]
      · intro hne
        apply d
        show (if n = leaf then nd.Children ++ new else nd.Children) ≠ []
        split
        · intro h
          exact hne (List.append_eq_nil.1 h).1
        · exact hne
    · intro n nd2 hn hge
      by_cases e : st1.nodes.length ≤ n
      · obtain ⟨a, b, c⟩ := i3 n nd2 hn e
        exact ⟨List.mem_append_right _ a, b, c⟩
      · have hn1 : n < st1.nodes.length := by omega
        obtain ⟨nd1, hnd1⟩ : ∃ nd1, st1.nodes[n]? = some nd1 :=
          ⟨_, List.getElem?_eq_getElem hn1⟩
        obtain ⟨a, b, _⟩ := g.fresh n nd1 hnd1 hge
        obtain ⟨nd2b, a2, b2, c2, _⟩ := i2 n nd1 hnd1
        rw [hn] at a2
        have := Option.some.inj a2
        subst this
        refine ⟨List.mem_append_left _ ((hnew n).2 ⟨hge, hn1⟩), by rw [b2]; exact a, ?_⟩
        rw [c2 (fun hmem => by
          have := hvalid n (List.mem_cons_of_mem _ hmem)
          omega)]
        exact b
    · intro n hn
      rcases List.mem_append.1 hn with hn | hn
      · have := (hnew n).1 hn
        exact ⟨this.1, lt_of_lt_of_le this.2 i1⟩
      · have := i4 n hn
        exact ⟨le_trans hlen1 this.1, this.2⟩

theorem growTree_spec {σ : Type} (env : Env σ) (numFeatures : Int) (h0 : 0 ≤ numFeatures)
    (hmax : numFeatures ≤ (maxAlloc : Int))
    (k : Nat) (b : Builder) (hb : LevelInv numFeatures k b) :
    ∃ b1, DecisionTreeBuilderSeq.growTree env b numFeatures = some b1 ∧ b1.root = b.root ∧
      LevelInv numFeatures (k + 1) b1 ∧
      LevelGrown env numFeatures k b.currentLeaves b.store b1.store b1.currentLeaves := by
  have hfr : ∀ l ∈ b.currentLeaves, ∃ lf : DecisionTreeNode,
      b.store.nodes[l]? = some lf ∧ lf.Features.len = k := by
    intro l hl
    obtain ⟨lf, a, c, _⟩ := hb.frontier l hl
    exact ⟨lf, a, c⟩
  obtain ⟨st1, new, he, hinv1, g⟩ :=
    growLeaves_spec env numFeatures h0 hmax k b.currentLeaves b.store [] hb.inv.mono hfr
  obtain ⟨f1, f2, f3, f4⟩ := g.facts (by
    intro l hl
    obtain ⟨lf, a, _⟩ := hfr l hl
    exact (List.getElem?_eq_some.1 a).1)
  refine ⟨{ b with store := st1, currentLeaves := new }, ?_, rfl, ?_, g⟩
  · simp only [DecisionTreeBuilderSeq.growTree, he, List.nil_append]
  · constructor
    · exact hinv1
    · intro l hl
      have hl2 := f4 l hl
      obtain ⟨nd1, hnd1⟩ : ∃ nd1, st1.nodes[l]? = some nd1 :=
        ⟨_, List.getElem?_eq_getElem hl2.2⟩
      obtain ⟨_, c, d⟩ := f3 l nd1 hnd1 hl2.1
      exact ⟨nd1, hnd1, c, d⟩
    · intro n nd1 hn hlen
      by_cases e : b.store.nodes.length ≤ n
      · exact (f3 n nd1 hn e).1
      · have hn0 : n < b.store.nodes.length := by omega
        obtain ⟨nd, hnd⟩ : ∃ nd, b.store.nodes[n]? = some nd :=
          ⟨_, List.getElem?_eq_getElem hn0⟩
        obtain ⟨nd1b, a, c, _, _⟩ := f2 n nd hnd
        rw [hn] at a
        have := Option.some.inj a
        subst this
        rw [c] at hlen
        have := hb.inv.depth n nd hnd
        omega
    · obtain ⟨r, hr, hr0⟩ := hb.root
      obtain ⟨r1, a, c, _, _⟩ := f2 b.root r hr
      exact ⟨r1, a, by rw [c]; exact hr0⟩

/-! ## The level-synchronous builder computes what the sequential builder computes -/

theorem addChild_acc {σ : Type} (env : Env σ) (leaf : Nat) (d : Int) (st : Store)
    (nl0 nl : List Nat) (v : String) :
    addChild env leaf d (st, nl0 ++ nl) v =
      (addChild env leaf d (st, nl) v).map (fun r => (r.1, nl0 ++ r.2)) := by
  simp only [addChild]
  cases st.nodes[leaf]? with
  | none => rfl
  | some lf =>
    simp only
    cases appendChild _ leaf st.nodes.length with
    | none => rfl
    | some st1 => simp [List.append_assoc]

theorem addChildren_acc {σ : Type} (env : Env σ) (leaf : Nat) (d : Int) (keys : List String) :
    ∀ (st : Store) (nl0 nl : List Nat),
      addChildren env leaf d keys (st, nl0 ++ nl) =
        (addChildren env leaf d keys (st, nl)).map (fun r => (r.1, nl0 ++ r.2)) := by
  induction keys with
  | nil => intro st nl0 nl; rfl
  | cons v rest ih =>
    intro st nl0 nl
    simp only [addChildren]
    rw [addChild_acc]
    cases addChild env leaf d (st, nl) v with
    | none => rfl
    | some acc1 =>
      obtain ⟨st1, nl1⟩ := acc1
      exact ih st1 nl0 nl1

theorem growLeaf_acc {σ : Type} (env : Env σ) (numFeatures : Int) (st : Store)
    (nl0 nl : List Nat) (leaf : Nat) :
    growLeaf env numFeatures (st, nl0 ++ nl) leaf =
      (growLeaf env numFeatures (st, nl) leaf).map (fun r => (r.1, nl0 ++ r.2)) := by
  simp only [growLeaf]
  cases st.nodes[leaf]? with
  | none => rfl
  | some lf =>
    simp only
    cases getRemainingFeatures (st.read lf.Features) numFeatures with
    | none => rfl
    | some rem => exact addChildren_acc env leaf _ _ st nl0 nl

theorem execute_eq_growLeaf {σ : Type} (env : Env σ) (st : Store) (leaf : Nat)
    (numFeatures : Int) :
    AggregatorTask.execute env st leaf numFeatures = growLeaf env numFeatures (st, []) leaf := by
  simp only [AggregatorTask.execute, growLeaf]
  cases st.nodes[leaf]? with
  | none => rfl
  | some lf =>
    simp only
    cases getRemainingFeatures (st.read lf.Features) numFeatures with
    | none => rfl
    | some rem =>
      simp only [reduce_eq_select]
      rfl

theorem runAggregators_eq_growLeaves {σ : Type} (env : Env σ) (numFeatures : Int)
    (todo : List Nat) :
    ∀ (st : Store) (chs : List (List Nat)),
      (runAggregators env numFeatures todo (st, chs)).map (fun r => (r.1, r.2.flatten)) =
        growLeaves env numFeatures todo (st, chs.flatten) := by
  induction todo with
  | nil => intro st chs; rfl
  | cons leaf rest ih =>
    intro st chs
    simp only [runAggregators, growLeaves]
    have h := growLeaf_acc env numFeatures st chs.flatten [] leaf
    rw [List.append_nil] at h
    rw [h, execute_eq_growLeaf]
    cases growLeaf env numFeatures (st, []) leaf with
    | none => rfl
    | some r =>
      obtain ⟨st1, children⟩ := r
      simp only [Option.map_some']
      rw [ih st1 (chs ++ [children])]
      simp

theorem gather_eq_flatten (futures : List (List Nat)) :
    ∀ acc : List Nat,
      futures.foldl (fun newLeaves children =>
        children.foldl (fun nl leaf => nl ++ [leaf]) newLeaves) acc = acc ++ futures.flatten := by
  have inner : ∀ (children acc : List Nat),
      children.foldl (fun nl leaf => nl ++ [leaf]) acc = acc ++ children := by
    intro children
    induction children with
    | nil => intro acc; simp
    | cons c rest ih => intro acc; simp [ih]
  induction futures with
  | nil => intro acc; simp
  | cons ch rest ih =>
    intro acc
    rw [List.foldl_cons, inner, ih, List.flatten_cons, List.append_assoc]

theorem parallel_growTree_eq {σ : Type} (env : Env σ) (b : Builder) (numFeatures : Int) :
    DecisionTreeBuilderParallel.growTree env b numFeatures =
      DecisionTreeBuilderSeq.growTree env b numFeatures := by
  have h := runAggregators_eq_growLeaves env numFeatures b.currentLeaves b.store []
  simp only [DecisionTreeBuilderParallel.growTree, DecisionTreeBuilderSeq.growTree]
  rw [List.flatten_nil] at h
  rw [← h]
  cases runAggregators env numFeatures b.currentLeaves (b.store, []) with
  | none => rfl
  | some r =>
    obtain ⟨st1, futures⟩ := r
    simp only [Option.map_some', gather_eq_flatten, List.nil_append]

theorem parallel_Build_eq {σ : Type} (env : Env σ) (b : Builder) :
    DecisionTreeBuilderParallel.Build env b = DecisionTreeBuilderSeq.Build env b := by
  simp only [DecisionTreeBuilderParallel.Build, DecisionTreeBuilderSeq.Build]
  cases getSchemaWidth env.Next with
  | none => rfl
  | some width =>
    simp only
    congr 1
    funext b1
    exact parallel_growTree_eq env b1 _

/-! ## The build loop -/

theorem LevelInv.init (numFeatures : Int) :
    LevelInv numFeatures 0 NewSequentialDecisionTreeBuilder := by
  have hnode : ∀ (n : Nat) (nd : DecisionTreeNode),
      NewSequentialDecisionTreeBuilder.store.nodes[n]? = some nd →
      n = 0 ∧ nd = ⟨⟨0, 0, 0⟩, []⟩ := by
    intro n nd hn
    cases n with
    | zero => exact ⟨rfl, (Option.some.inj hn).symm⟩
    | succ m => simp [NewSequentialDecisionTreeBuilder] at hn
  refine ⟨⟨?_, ?_, ?_, ?_⟩, ?_, ?_, ?_⟩
  · intro n nd hn
    obtain ⟨_, rfl⟩ := hnode n nd hn
    exact ⟨[], rfl, rfl, le_refl _⟩
  · intro n nd hn
    obtain ⟨_, rfl⟩ := hnode n nd hn
    exact le_refl _
  · intro n nd hn
    obtain ⟨_, rfl⟩ := hnode n nd hn
    exact ⟨List.nodup_nil, fun f hf => absurd hf (List.not_mem_nil f)⟩
  · intro n nd hn c hc
    obtain ⟨_, rfl⟩ := hnode n nd hn
    exact absurd hc (List.not_mem_nil c)
  · intro l hl
    have : l = 0 := by simpa [NewSequentialDecisionTreeBuilder] using hl
    subst this
    exact ⟨_, rfl, rfl, rfl⟩
  · intro n nd hn _
    obtain ⟨rfl, _⟩ := hnode n nd hn
    simp [NewSequentialDecisionTreeBuilder]
  · exact ⟨_, rfl, rfl⟩

theorem growLoop_spec {σ : Type} (env : Env σ) (numFeatures : Int)
    (hmax : numFeatures ≤ (maxAlloc : Int)) (Q : Nat → Builder → Prop)
    (hstep : ∀ (k : Nat) (b b1 : Builder), LevelInv numFeatures k b → Q k b →
      (k : Int) < numFeatures → LevelInv numFeatures (k + 1) b1 →
      LevelGrown env numFeatures k b.currentLeaves b.store b1.store b1.currentLeaves →
      Q (k + 1) b1)
    (n : Nat) :
    ∀ (k : Nat) (b : Builder), LevelInv numFeatures k b → Q k b →
      (n ≠ 0 → ((k + n : Nat) : Int) ≤ numFeatures) →
      ∃ b1, growLoop (fun b => DecisionTreeBuilderSeq.growTree env b numFeatures) n b = some b1 ∧
        b1.root = b.root ∧ LevelInv numFeatures (k + n) b1 ∧ Q (k + n) b1 := by
  induction n with
  | zero =>
    intro k b hb hq _
    exact ⟨b, rfl, rfl, hb, hq⟩
  | succ n ih =>
    intro k b hb hq hle0
    have hle := hle0 (Nat.succ_ne_zero n)
    have hk : (k : Int) < numFeatures := by push_cast at hle; omega
    obtain ⟨b1, he1, hr1, hb1, g⟩ := growTree_spec env numFeatures (by omega) hmax k b hb
    obtain ⟨b2, he2, hr2, hb2, hq2⟩ := ih (k + 1) b1 hb1 (hstep k b b1 hb hq hk hb1 g)
      (by intro _; push_cast at hle ⊢; omega)
    have : k + (n + 1) = k + 1 + n := by omega
    refine ⟨b2, ?_, hr2.trans hr1, ?_, ?_⟩
    · simp only [growLoop, he1, he2]
    · rw [this]
      exact hb2
    · rw [this]
      exact hq2

theorem Build_spec {σ : Type} (env : Env σ) (width : Int)
    (hw : getSchemaWidth env.Next = some width) (Q : Nat → Builder → Prop)
    (hstep : ∀ (k : Nat) (b b1 : Builder), LevelInv (width - 1) k b → Q k b →
      (k : Int) < width - 1 → LevelInv (width - 1) (k + 1) b1 →
      LevelGrown env (width - 1) k b.currentLeaves b.store b1.store b1.currentLeaves →
      Q (k + 1) b1)
    (hq0 : Q 0 NewSequentialDecisionTreeBuilder) :
    ∃ b1, DecisionTreeBuilderSeq.Build env NewSequentialDecisionTreeBuilder = some b1 ∧
      DecisionTreeBuilderParallel.Build env NewParallelDecisionTreeBuilder = some b1 ∧
      b1.root = 0 ∧ LevelInv (width - 1) (width - 1).toNat b1 ∧ Q (width - 1).toNat b1 := by
  obtain ⟨b1, he, hr, hb, hq⟩ := growLoop_spec env (width - 1)
      (width_fits env width hw) Q hstep (width - 1).toNat 0
    NewSequentialDecisionTreeBuilder (LevelInv.init _) hq0 (by intro h; omega)
  rw [Nat.zero_add] at hb hq
  have hseq : DecisionTreeBuilderSeq.Build env NewSequentialDecisionTreeBuilder = some b1 := by
    simp only [DecisionTreeBuilderSeq.Build, hw, he]
  refine ⟨b1, hseq, ?_, hr, hb, hq⟩
  rw [parallel_Build_eq]
  exact hseq

/-! ## Paths in a well-formed store -/

theorem Inv.features_good {numFeatures : Int} {m : Nat} {st : Store}
    (h : Inv numFeatures m st) (n : Nat) : GoodPath numFeatures (st.features n) := by
  unfold Store.features
  cases hn : st.nodes[n]? with
  | none => exact ⟨List.nodup_nil, fun f hf => absurd hf (List.not_mem_nil f)⟩
  | some nd => exact h.good n nd hn

theorem Inv.features_child {numFeatures : Int} {m : Nat} {st : Store}
    (h : Inv numFeatures m st) (p c : Nat) (hc : c ∈ st.children p) :
    ∃ f : DimensionFilter, st.features c = st.features p ++ [f] ∧
      f.ColumnIndex ∉ columns (st.features p) := by
  unfold Store.children at hc
  cases hp : st.nodes[p]? with
  | none =>
    rw [hp] at hc
    exact absurd hc (List.not_mem_nil c)
  | some nd =>
    rw [hp] at hc
    obtain ⟨cd, hcd, hlen, htake⟩ := h.edge p nd hp c hc
    have hfc : st.features c = st.read cd.Features := by simp only [Store.features, hcd]
    have hfp : st.features p = st.read nd.Features := by simp only [Store.features, hp]
    have hl : (st.read cd.Features).length = nd.Features.len + 1 := by
      rw [Store.read_length (h.backed c cd hcd), hlen]
    have hsplit := List.take_append_drop nd.Features.len (st.read cd.Features)
    have hdl : ((st.read cd.Features).drop nd.Features.len).length = 1 := by
      rw [List.length_drop, hl]
      omega
    obtain ⟨f, hf⟩ := List.length_eq_one.1 hdl
    rw [htake, hf] at hsplit
    refine ⟨f, by rw [hfc, hfp, hsplit], ?_⟩
    have hnd := (h.good c cd hcd).1
    rw [← hsplit] at hnd
    simp only [columns, List.map_append, List.map_cons, List.map_nil] at hnd
    rw [hfp]
    intro hmem
    exact (List.nodup_append.1 hnd).2.2 hmem (List.mem_singleton.2 rfl)

theorem Reachable.valid {numFeatures : Int} {m : Nat} {st : Store} {root n : Nat}
    (hinv : Inv numFeatures m st) (h : Reachable st root n) (hr : root < st.nodes.length) :
    n < st.nodes.length := by
  induction h with
  | root => exact hr
  | @child p c _ hc _ =>
    unfold Store.children at hc
    cases hp : st.nodes[p]? with
    | none =>
      rw [hp] at hc
      exact absurd hc (List.not_mem_nil c)
    | some nd =>
      rw [hp] at hc
      obtain ⟨cd, hcd, _, _⟩ := hinv.edge p nd hp c hc
      exact (List.getElem?_eq_some.1 hcd).1

/-- C4: in the tree that `Build` of either builder returns, the root has the empty path, and
the path of every other node is the path of its parent followed by exactly one filter, on a
column that does not occur in the parent's path. -/
theorem child_path_extends_parent {σ : Type} (env : Env σ) (width : Int)
    (hw : getSchemaWidth env.Next = some width) :
    ∃ bS bP, DecisionTreeBuilderSeq.Build env NewSequentialDecisionTreeBuilder = some bS ∧
      DecisionTreeBuilderParallel.Build env NewParallelDecisionTreeBuilder = some bP ∧
      (bS.store.features bS.root = [] ∧
        ∀ p c : Nat, Reachable bS.store bS.root p → c ∈ bS.store.children p →
          ∃ f : DimensionFilter, bS.store.features c = bS.store.features p ++ [f] ∧
            f.ColumnIndex ∉ columns (bS.store.features p)) ∧
      (bP.store.features bP.root = [] ∧
        ∀ p c : Nat, Reachable bP.store bP.root p → c ∈ bP.store.children p →
          ∃ f : DimensionFilter, bP.store.features c = bP.store.features p ++ [f] ∧
            f.ColumnIndex ∉ columns (bP.store.features p)) := by
  obtain ⟨b1, hs, hp, _, hb, _⟩ := Build_spec env width hw (fun _ _ => True)
    (fun _ _ _ _ _ _ _ _ => trivial) trivial
  have hroot : b1.store.features b1.root = [] := by
    obtain ⟨r, hr, hr0⟩ := hb.root
    have hlen := Store.read_length (hb.inv.backed _ r hr)
    rw [hr0] at hlen
    simp only [Store.features, hr]
    exact List.length_eq_zero.1 hlen
  exact ⟨b1, b1, hs, hp, ⟨hroot, fun p c _ hc => hb.inv.features_child p c hc⟩,
    ⟨hroot, fun p c _ hc => hb.inv.features_child p c hc⟩⟩

theorem child_path_extends_parent_witness :
    ∃ bS bP, DecisionTreeBuilderSeq.Build envFour NewSequentialDecisionTreeBuilder = some bS ∧
      DecisionTreeBuilderParallel.Build envFour NewParallelDecisionTreeBuilder = some bP ∧
      (bS.store.features bS.root = [] ∧
        ∀ p c : Nat, Reachable bS.store bS.root p → c ∈ bS.store.children p →
          ∃ f : DimensionFilter, bS.store.features c = bS.store.features p ++ [f] ∧
            f.ColumnIndex ∉ columns (bS.store.features p)) ∧
      (bP.store.features bP.root = [] ∧
        ∀ p c : Nat, Reachable bP.store bP.root p → c ∈ bP.store.children p →
          ∃ f : DimensionFilter, bP.store.features c = bP.store.features p ++ [f] ∧
            f.ColumnIndex ∉ columns (bP.store.features p)) :=
  child_path_extends_parent envFour 5 (by decide)

/-- C5: for a data set of schema width `W`, in the tree that `Build` of either builder
returns the column indices on the path of every node are pairwise distinct and each lies in
`1..W-1`. -/
theorem path_columns_distinct_in_range {σ : Type} (env : Env σ) (width : Int)
    (hw : getSchemaWidth env.Next = some width) :
    ∃ bS bP, DecisionTreeBuilderSeq.Build env NewSequentialDecisionTreeBuilder = some bS ∧
      DecisionTreeBuilderParallel.Build env NewParallelDecisionTreeBuilder = some bP ∧
      (∀ n : Nat, Reachable bS.store bS.root n →
        (columns (bS.store.features n)).Nodup ∧
        ∀ c ∈ columns (bS.store.features n), 1 ≤ c ∧ c ≤ width - 1) ∧
      (∀ n : Nat, Reachable bP.store bP.root n →
        (columns (bP.store.features n)).Nodup ∧
        ∀ c ∈ columns (bP.store.features n), 1 ≤ c ∧ c ≤ width - 1) := by
  obtain ⟨b1, hs, hp, _, hb, _⟩ := Build_spec env width hw (fun _ _ => True)
    (fun _ _ _ _ _ _ _ _ => trivial) trivial
  have key : ∀ n : Nat, Reachable b1.store b1.root n →
      (columns (b1.store.features n)).Nodup ∧
      ∀ c ∈ columns (b1.store.features n), 1 ≤ c ∧ c ≤ width - 1 := by
    intro n _
    have hg := hb.inv.features_good n
    refine ⟨hg.1, ?_⟩
    intro c hc
    simp only [columns, List.mem_map] at hc
    obtain ⟨f, hf, rfl⟩ := hc
    exact hg.2 f hf
  exact ⟨b1, b1, hs, hp, key, key⟩

theorem path_columns_distinct_in_range_witness :
    ∃ bS bP, DecisionTreeBuilderSeq.Build envFour NewSequentialDecisionTreeBuilder = some bS ∧
      DecisionTreeBuilderParallel.Build envFour NewParallelDecisionTreeBuilder = some bP ∧
      (∀ n : Nat, Reachable bS.store bS.root n →
        (columns (bS.store.features n)).Nodup ∧
        ∀ c ∈ columns (bS.store.features n), 1 ≤ c ∧ c ≤ 5 - 1) ∧
      (∀ n : Nat, Reachable bP.store bP.root n →
        (columns (bP.store.features n)).Nodup ∧
        ∀ c ∈ columns (bP.store.features n), 1 ≤ c ∧ c ≤ 5 - 1) :=
  path_columns_distinct_in_range envFour 5 (by decide)

/-- C6 as stated fails on the one-feature data set `v,t` / `v,u` (schema width 2, the only
entropy 1.0 lies in `[0,1]`): both builders return the root without children, a leaf whose
path has length 0 and not `W-1 = 1`. -/
theorem leaf_depth_counterexample :
    (∀ (path : List DimensionFilter) (c : Int),
      0 ≤ envOne.computeEntropy (envOne.BreakDownSubtreeDimension path c) ∧
      envOne.computeEntropy (envOne.BreakDownSubtreeDimension path c) ≤ 1) ∧
    getSchemaWidth envOne.Next = some 2 ∧
    ∃ b, DecisionTreeBuilderSeq.Build envOne NewSequentialDecisionTreeBuilder = some b ∧
      DecisionTreeBuilderParallel.Build envOne NewParallelDecisionTreeBuilder = some b ∧
      Reachable b.store b.root b.root ∧ b.store.children b.root = [] ∧
      ((b.store.features b.root).length : Int) ≠ 2 - 1 := by
  refine ⟨fun _ _ => ⟨by simp [envOne], by simp [envOne]⟩, by decide,
    ⟨{ NewSequentialDecisionTreeBuilder with currentLeaves := [] }, by decide, by decide,
      Reachable.root, by decide, by decide⟩⟩

/-! ## Siblings that share a backing array -/

/-- C3 at the data set `v,v,v,a,t` / `v,v,v,b,t`: after three calls of `growTree` the only
current leaf is node 3 with path `(1,v),(2,v),(3,v)`, held in a backing array of capacity 4,
and its winning breakdown (column 4) has the two keys `a` and `b`.  The fourth call, and
likewise `AggregatorTask.execute`, appends two children, nodes 4 and 5, to the node and to
the new leaves, but both children end with the same path `(1,v),(2,v),(3,v),(4,b)`: the
second `append` wrote into the array that the first child shares. -/
theorem children_share_last_filter :
    afterThreeLevels.map (fun b3 => (b3.currentLeaves, b3.store.nodes[3]?,
      b3.store.features 3)) =
      some ([3], some ⟨⟨3, 3, 4⟩, []⟩, [⟨1, "v"⟩, ⟨2, "v"⟩, ⟨3, "v"⟩]) ∧
    afterThreeLevels.map (fun b3 => (getRemainingFeatures (b3.store.features 3) 4,
      (selectBest envFour (b3.store.features 3) [4]).bestDimension,
      (selectBest envFour (b3.store.features 3) [4]).bestBreakdown.Distribution.map Prod.fst)) =
      some (some [4], 4, ["a", "b"]) ∧
    (afterThreeLevels.bind (fun b3 => DecisionTreeBuilderSeq.growTree envFour b3 4)).map
      (fun b4 => (b4.store.children 3, b4.currentLeaves, b4.store.features 4,
        b4.store.features 5)) =
      some ([4, 5], [4, 5], [⟨1, "v"⟩, ⟨2, "v"⟩, ⟨3, "v"⟩, ⟨4, "b"⟩],
        [⟨1, "v"⟩, ⟨2, "v"⟩, ⟨3, "v"⟩, ⟨4, "b"⟩]) ∧
    (afterThreeLevels.bind (fun b3 => AggregatorTask.execute envFour b3.store 3 4)).map
      (fun r => (r.1.children 3, r.2, r.1.features 4, r.1.features 5)) =
      some ([4, 5], [4, 5], [⟨1, "v"⟩, ⟨2, "v"⟩, ⟨3, "v"⟩, ⟨4, "b"⟩],
        [⟨1, "v"⟩, ⟨2, "v"⟩, ⟨3, "v"⟩, ⟨4, "b"⟩]) := by
  refine ⟨by decide, by decide, by decide, by decide⟩

/-- C10 at the data set `v,v,v,a,t` / `v,v,v,b,t`: in the fourth call of `growTree` the loop
over the keys of node 3 first creates node 4 with path `(1,v),(2,v),(3,v),(4,a)`; creating
its sibling, node 5, changes the path of node 4 to `(1,v),(2,v),(3,v),(4,b)`, and this is the
path node 4 has in the tree that `Build` returns. -/
theorem sibling_creation_rewrites_path :
    (afterThreeLevels.bind (fun b3 => addChild envFour 3 4 (b3.store, []) "a")).map
      (fun r => (r.2, r.1.features 4)) =
      some ([4], [⟨1, "v"⟩, ⟨2, "v"⟩, ⟨3, "v"⟩, ⟨4, "a"⟩]) ∧
    ((afterThreeLevels.bind (fun b3 => addChild envFour 3 4 (b3.store, []) "a")).bind
      (fun r => addChild envFour 3 4 r "b")).map (fun r => (r.2, r.1.features 4)) =
      some ([4, 5], [⟨1, "v"⟩, ⟨2, "v"⟩, ⟨3, "v"⟩, ⟨4, "b"⟩]) ∧
    afterThreeLevels.bind (fun b3 => growLeaves envFour 4 b3.currentLeaves (b3.store, [])) =
      (afterThreeLevels.bind (fun b3 => addChild envFour 3 4 (b3.store, []) "a")).bind
        (fun r => addChild envFour 3 4 r "b") ∧
    (DecisionTreeBuilderSeq.Build envFour NewSequentialDecisionTreeBuilder).map
      (fun b => b.store.features 4) = some [⟨1, "v"⟩, ⟨2, "v"⟩, ⟨3, "v"⟩, ⟨4, "b"⟩] ∧
    (DecisionTreeBuilderParallel.Build envFour NewParallelDecisionTreeBuilder).map
      (fun b => b.store.features 4) = some [⟨1, "v"⟩, ⟨2, "v"⟩, ⟨3, "v"⟩, ⟨4, "b"⟩] := by
  refine ⟨by decide, by decide, by decide, by decide, by decide⟩

/-- C7 at the data set `v,v,v,a,t` / `v,v,v,b,t`: the sequential build visits the values of
column 4 as `a, b`, the parallel build as `b, a` (the same map, the same entropies).  The
path `(1,v),(2,v),(3,v),(4,b)` belongs to the tree of the sequential builder and to no node
of the tree of the parallel builder, so the two sets of paths differ. -/
theorem builders_disagree_on_paths :
    (∀ (path : List DimensionFilter) (c : Int),
      (envFour.BreakDownSubtreeDimension path c).Distribution.Perm
        (envFourRev.BreakDownSubtreeDimension path c).Distribution ∧
      envFour.computeEntropy (envFour.BreakDownSubtreeDimension path c) =
        envFourRev.computeEntropy (envFourRev.BreakDownSubtreeDimension path c)) ∧
    envFour.Next = envFourRev.Next ∧ envFour.growCap = envFourRev.growCap ∧
    ∃ bS bP, DecisionTreeBuilderSeq.Build envFour NewSequentialDecisionTreeBuilder = some bS ∧
      DecisionTreeBuilderParallel.Build envFourRev NewParallelDecisionTreeBuilder = some bP ∧
      (∃ n, Reachable bS.store bS.root n ∧
        bS.store.features n = [⟨1, "v"⟩, ⟨2, "v"⟩, ⟨3, "v"⟩, ⟨4, "b"⟩]) ∧
      ¬ ∃ n, Reachable bP.store bP.root n ∧
        bP.store.features n = [⟨1, "v"⟩, ⟨2, "v"⟩, ⟨3, "v"⟩, ⟨4, "b"⟩] := by
  refine ⟨?_, rfl, rfl, ?_⟩
  · intro path c
    refine ⟨?_, rfl⟩
    by_cases h : c = 4
    · simp only [envFour, envFourRev, h, if_true]
      exact List.Perm.swap _ _ _
    · simp only [envFour, envFourRev, h, if_false]
      exact List.Perm.refl _
  · obtain ⟨bP, _, hP, _, hinv, _⟩ := Build_spec envFourRev 5 (by decide) (fun _ _ => True)
      (fun _ _ _ _ _ _ _ _ => trivial) trivial
    cases hS : DecisionTreeBuilderSeq.Build envFour NewSequentialDecisionTreeBuilder with
    | none => exact absurd hS (by decide)
    | some bS =>
      have hfS : (DecisionTreeBuilderSeq.Build envFour NewSequentialDecisionTreeBuilder).map
          (fun b => (b.root, b.store.children 0, b.store.children 1)) =
          some (0, [1], [2]) := by
        decide
      have hfS2 : (DecisionTreeBuilderSeq.Build envFour NewSequentialDecisionTreeBuilder).map
          (fun b => (b.store.children 2, b.store.children 3, b.store.features 4)) =
          some ([3], [4, 5], [⟨1, "v"⟩, ⟨2, "v"⟩, ⟨3, "v"⟩, ⟨4, "b"⟩]) := by
        decide
      rw [hS] at hfS hfS2
      simp only [Option.map_some', Option.some.injEq, Prod.mk.injEq] at hfS hfS2
      obtain ⟨hr, h0, h1⟩ := hfS
      obtain ⟨h2, h3, h4⟩ := hfS2
      have hfP : (DecisionTreeBuilderParallel.Build envFourRev
          NewParallelDecisionTreeBuilder).map
          (fun b => (b.root, b.store.nodes.length, (List.range 6).map b.store.features)) =
          some (0, 6, [[], [⟨1, "v"⟩], [⟨1, "v"⟩, ⟨2, "v"⟩], [⟨1, "v"⟩, ⟨2, "v"⟩, ⟨3, "v"⟩],
            [⟨1, "v"⟩, ⟨2, "v"⟩, ⟨3, "v"⟩, ⟨4, "a"⟩],
            [⟨1, "v"⟩, ⟨2, "v"⟩, ⟨3, "v"⟩, ⟨4, "a"⟩]]) := by
        decide
      rw [hP] at hfP
      simp only [Option.map_some', Option.some.injEq, Prod.mk.injEq] at hfP
      obtain ⟨hrP, hlen, hall⟩ := hfP
      refine ⟨bS, bP, rfl, hP, ⟨4, ?_, h4⟩, ?_⟩
      · rw [hr]
        have r1 : Reachable bS.store 0 1 := Reachable.child Reachable.root (by rw [h0]; decide)
        have r2 : Reachable bS.store 0 2 := Reachable.child r1 (by rw [h1]; decide)
        have r3 : Reachable bS.store 0 3 := Reachable.child r2 (by rw [h2]; decide)
        exact Reachable.child r3 (by rw [h3]; decide)
      · rintro ⟨n, hreach, hfeat⟩
        have hv := hreach.valid hinv.inv (by rw [hrP, hlen]; decide)
        rw [hlen] at hv
        have hmem : bP.store.features n ∈ (List.range 6).map bP.store.features :=
          List.mem_map.2 ⟨n, List.mem_range.2 hv, rfl⟩
        rw [hall, hfeat] at hmem
        exact absurd hmem (by decide)

/-! ## Traces of a level -/

theorem LevelGrown.level_stable {σ : Type} {env : Env σ} {numFeatures : Int} {k : Nat}
    {todo : List Nat} {st st1 : Store} {new : List Nat}
    (h : LevelGrown env numFeatures k todo st st1 new) :
    ∀ t : Slice, st.Backed t → st1.Backed t ∧ (t.len ≤ k → st1.read t = st.read t) := by
  induction h with
  | nil st => exact fun t ht => ⟨ht, fun _ => rfl⟩
  | @cons leaf rest st st1 st2 new newRest hleaf _ ih =>
    intro t ht
    obtain ⟨lf, rem, _, _, _, _, _, g⟩ := hleaf
    obtain ⟨hb2, hr2⟩ := ih t (g.backed t ht)
    exact ⟨hb2, fun hle => (hr2 hle).trans (g.stable t ht hle)⟩

theorem LevelGrown.cons_inv {σ : Type} {env : Env σ} {numFeatures : Int} {k : Nat}
    {leaf : Nat} {rest : List Nat} {st st2 : Store} {new : List Nat}
    (h : LevelGrown env numFeatures k (leaf :: rest) st st2 new) :
    ∃ st1 new1 new2, new = new1 ++ new2 ∧ LeafGrown env numFeatures k st st1 leaf new1 ∧
      LevelGrown env numFeatures k rest st1 st2 new2 := by
  cases h with
  | cons h1 h2 => exact ⟨_, _, _, rfl, h1, h2⟩

theorem LevelGrown.nil_inv {σ : Type} {env : Env σ} {numFeatures : Int} {k : Nat}
    {st st1 : Store} {new : List Nat} (h : LevelGrown env numFeatures k [] st st1 new) :
    st1 = st ∧ new = [] := by
  cases h with
  | nil => exact ⟨rfl, rfl⟩

theorem LevelGrown.children_nonempty {σ : Type} {env : Env σ} {numFeatures : Int} {k : Nat}
    {todo : List Nat} {st st1 : Store} {new : List Nat}
    (h : LevelGrown env numFeatures k todo st st1 new) :
    (∀ l ∈ todo, ∃ lf : DecisionTreeNode, st.nodes[l]? = some lf ∧ lf.Features.len = k) →
    ∀ l ∈ todo, ∀ lf : DecisionTreeNode, st.nodes[l]? = some lf →
      (∀ rem, getRemainingFeatures (st.read lf.Features) numFeatures = some rem →
        (selectBest env (st.read lf.Features) rem).bestBreakdown.Distribution ≠ []) →
      ∃ nd1 : DecisionTreeNode, st1.nodes[l]? = some nd1 ∧ nd1.Children ≠ [] := by
  induction h with
  | nil st =>
    intro _ l hl
    exact absurd hl (List.not_mem_nil l)
  | @cons leaf rest st st1 st2 new newRest hleaf hrest ih =>
    intro hvalid l hl lf hlf hsel
    obtain ⟨lf0, rem, hinv, _, hlf0, hlen, hrem, g⟩ := hleaf
    have hlen1 : st.nodes.length ≤ st1.nodes.length := by
      rw [g.length]
      omega
    have hvalid1 : ∀ l ∈ rest, ∃ lf : DecisionTreeNode,
        st1.nodes[l]? = some lf ∧ lf.Features.len = k := by
      intro l hl
      obtain ⟨nd, hnd, hk⟩ := hvalid l (List.mem_cons_of_mem _ hl)
      exact ⟨_, g.old l nd hnd, hk⟩
    obtain ⟨_, f2, _, _⟩ := hrest.facts (fun l hl => by
      obtain ⟨nd, hnd, _⟩ := hvalid1 l hl
      exact (List.getElem?_eq_some.1 hnd).1)
    by_cases hmem : l ∈ rest
    · obtain ⟨nd, hnd, hk⟩ := hvalid l hl
      rw [hlf] at hnd
      have := Option.some.inj hnd
      subst this
      have hst : st1.read lf.Features = st.read lf.Features :=
        g.stable lf.Features (hinv.backed l lf hlf) (le_of_eq hk)
      exact ih hvalid1 l hmem _ (g.old l lf hlf) (by
        intro rem1 hrem1
        simp only [hst] at hrem1 ⊢
        exact hsel rem1 hrem1)
    · have hleq : l = leaf := by
        rcases List.mem_cons.1 hl with h | h
        · exact h
        · exact absurd h hmem
      subst hleq
      rw [hlf] at hlf0
      have := Option.some.inj hlf0
      subst this
      have hne := hsel rem hrem
      have hnew : new ≠ [] := by
        rw [g.new_eq]
        intro h
        have h5 := congrArg List.length h
        rw [List.length_range', List.length_map, List.length_nil] at h5
        exact hne (List.length_eq_zero.1 h5)
      obtain ⟨nd2, a, _, _, d⟩ := f2 l _ (g.old l lf hlf)
      refine ⟨nd2, a, d ?_⟩
      rw [if_pos rfl]
      intro h
      exact hnew (List.append_eq_nil.1 h).2

theorem perm_pair {α : Type} {x y : α} (hxy : x ≠ y) {l : List α} (h : l.Perm [x, y]) :
    l = [x, y] ∨ l = [y, x] := by
  have hlen := h.length_eq
  obtain ⟨u, w, rfl⟩ := List.length_eq_two.1 hlen
  have hx : x ∈ [u, w] := h.mem_iff.2 (List.mem_cons_self _ _)
  have hy : y ∈ [u, w] := h.mem_iff.2 (List.mem_cons_of_mem _ (List.mem_cons_self _ _))
  have hu : u ∈ [x, y] := h.mem_iff.1 (List.mem_cons_self _ _)
  have hw : w ∈ [x, y] := h.mem_iff.1 (List.mem_cons_of_mem _ (List.mem_cons_self _ _))
  simp only [List.mem_cons, List.mem_singleton, List.not_mem_nil, or_false] at hx hy hu hw
  rcases hu with rfl | rfl
  · rcases hw with rfl | rfl
    · rcases hy with h1 | h1 <;> exact absurd h1.symm hxy
    · exact Or.inl rfl
  · rcases hw with rfl | rfl
    · exact Or.inr rfl
    · rcases hx with h1 | h1 <;> exact absurd h1 hxy

/-! ## The end-to-end data set -/

theorem splits_on_then {σ : Type} (env : Env σ) (a b : Int)
    (hab : (a = 1 ∧ b = 2) ∨ (a = 2 ∧ b = 1))
    (hw : getSchemaWidth env.Next = some 3)
    (hAkeys : ((env.BreakDownSubtreeDimension [] a).Distribution.map Prod.fst).Perm ["x", "y"])
    (hA : env.computeEntropy (env.BreakDownSubtreeDimension [] a) = 0)
    (hB : env.computeEntropy (env.BreakDownSubtreeDimension [] b) = 1)
    (hsub : ∀ v : String, v = "x" ∨ v = "y" →
      ((env.BreakDownSubtreeDimension [⟨a, v⟩] b).Distribution.map Prod.fst).Perm ["p", "q"] ∧
      env.computeEntropy (env.BreakDownSubtreeDimension [⟨a, v⟩] b) < 1) :
    ∃ t, DecisionTreeBuilderSeq.Build env NewSequentialDecisionTreeBuilder = some t ∧
      SplitsOnThen a b t := by
  -- first level: the root
  obtain ⟨b1, he1, hr1, hb1, g1⟩ :=
    growTree_spec env 2 (by decide) (by decide) 0 NewSequentialDecisionTreeBuilder (LevelInv.init 2)
  obtain ⟨st1, new1, new2, hnew, hleaf, hrest⟩ := LevelGrown.cons_inv
    (show LevelGrown env 2 0 (0 :: []) NewSequentialDecisionTreeBuilder.store b1.store
      b1.currentLeaves from g1)
  obtain ⟨hst, hn2⟩ := hrest.nil_inv
  subst hst
  subst hn2
  rw [List.append_nil] at hnew
  obtain ⟨lf, rem, _, _, hlf, _, hrem, g⟩ := hleaf
  have hroot : NewSequentialDecisionTreeBuilder.store.nodes[0]? = some ⟨⟨0, 0, 0⟩, []⟩ := rfl
  have hlfeq : lf = ⟨⟨0, 0, 0⟩, []⟩ := by
    rw [hroot] at hlf
    exact (Option.some.inj hlf).symm
  subst hlfeq
  have hread : NewSequentialDecisionTreeBuilder.store.read
      (DecisionTreeNode.mk ⟨0, 0, 0⟩ []).Features = [] := rfl
  rw [hread] at hrem g
  have hremeq : rem = [1, 2] := by
    have h : getRemainingFeatures [] 2 = some [1, 2] := by decide
    rw [h] at hrem
    exact (Option.some.inj hrem).symm
  subst hremeq
  have hsel : selectBest env [] [1, 2] =
      ⟨0, env.BreakDownSubtreeDimension [] a, a⟩ := by
    rcases hab with ⟨rfl, rfl⟩ | ⟨rfl, rfl⟩ <;>
      simp [selectBest, selectStep, Best.init, hA, hB]
  rw [hsel] at g
  simp only at g
  obtain ⟨k1, k2, hkeys, hk1, hk2, hperm⟩ : ∃ k1 k2 : String,
      (env.BreakDownSubtreeDimension [] a).Distribution.map Prod.fst = [k1, k2] ∧
      (k1 = "x" ∨ k1 = "y") ∧ (k2 = "x" ∨ k2 = "y") ∧
      ([[⟨a, k1⟩], [⟨a, k2⟩]] : List (List DimensionFilter)).Perm
        [[⟨a, "x"⟩], [⟨a, "y"⟩]] := by
    rcases perm_pair (by decide : ("x" : String) ≠ "y") hAkeys with h | h
    · exact ⟨"x", "y", h, Or.inl rfl, Or.inr rfl, List.Perm.refl _⟩
    · exact ⟨"y", "x", h, Or.inr rfl, Or.inl rfl, List.Perm.swap _ _ _⟩
  rw [hkeys] at g
  have hnew1 : b1.currentLeaves = [1, 2] := by
    rw [hnew, g.new_eq]
    rfl
  have hnode0 : b1.store.nodes[0]? = some ⟨⟨0, 0, 0⟩, [1, 2]⟩ := by
    have h := g.old 0 _ hroot
    rw [if_pos rfl, g.new_eq] at h
    exact h
  obtain ⟨n1, hn1, hread1⟩ := g.exact _ hroot rfl 0 k1 rfl
  obtain ⟨n2, hn2, hread2⟩ := g.exact _ hroot rfl 1 k2 rfl
  have hn1' : b1.store.nodes[1]? = some n1 := hn1
  have hn2' : b1.store.nodes[2]? = some n2 := hn2
  rw [List.nil_append] at hread1 hread2
  -- second level: the two children of the root
  obtain ⟨b2, he2, hr2, hb2, g2⟩ := growTree_spec env 2 (by decide) (by decide) 1 b1 hb1
  have hvalid : ∀ l ∈ b1.currentLeaves, ∃ lf : DecisionTreeNode,
      b1.store.nodes[l]? = some lf ∧ lf.Features.len = 1 := by
    intro l hl
    obtain ⟨lf, h1, h2, _⟩ := hb1.frontier l hl
    exact ⟨lf, h1, h2⟩
  obtain ⟨_, f2, _, _⟩ := g2.facts (fun l hl => by
    obtain ⟨lf, h1, _⟩ := hvalid l hl
    exact (List.getElem?_eq_some.1 h1).1)
  have hremb : ∀ v : String, getRemainingFeatures [⟨a, v⟩] 2 = some [b] := by
    intro v
    rcases hab with ⟨rfl, rfl⟩ | ⟨rfl, rfl⟩ <;> rfl
  have hexp : ∀ (l : Nat) (nd : DecisionTreeNode) (v : String), l ∈ b1.currentLeaves →
      b1.store.nodes[l]? = some nd → b1.store.read nd.Features = [⟨a, v⟩] →
      (v = "x" ∨ v = "y") →
      b2.store.children l ≠ [] ∧ b2.store.features l = [⟨a, v⟩] := by
    intro l nd v hl hnd hrd hv
    obtain ⟨nd2, h1, h2⟩ := g2.children_nonempty hvalid l hl nd hnd (by
      intro rem1 hrem1
      rw [hrd] at hrem1 ⊢
      rw [hremb v] at hrem1
      have := Option.some.inj hrem1
      subst this
      have hlt := (hsub v hv).2
      have hp := (hsub v hv).1
      simp only [selectBest, List.foldl_cons, List.foldl_nil, selectStep, Best.init, hlt,
        if_true]
      intro h
      rw [h] at hp
      exact absurd hp.length_eq (by simp))
    obtain ⟨nd2b, h3, h4, _, _⟩ := f2 l nd hnd
    rw [h1] at h3
    have := Option.some.inj h3
    subst this
    refine ⟨by simpa only [Store.children, h1] using h2, ?_⟩
    simp only [Store.features, h1, h4]
    rw [((g2.level_stable nd.Features (hb1.inv.backed l nd hnd)).2
      (by obtain ⟨lf, h5, h6⟩ := hvalid l hl
          rw [hnd] at h5
          rw [Option.some.inj h5]
          exact le_of_eq h6))]
    exact hrd
  obtain ⟨c1, f1⟩ := hexp 1 n1 k1 (by rw [hnew1]; decide) hn1' hread1 hk1
  obtain ⟨c2, f2b⟩ := hexp 2 n2 k2 (by rw [hnew1]; decide) hn2' hread2 hk2
  have hroot2 : b2.root = 0 := by rw [hr2, hr1]; rfl
  have hch0 : b2.store.children 0 = [1, 2] := by
    obtain ⟨nd0, h1, _, h3, _⟩ := f2 0 _ hnode0
    simp only [Store.children, h1]
    exact h3 (by rw [hnew1]; decide)
  refine ⟨b2, ?_, ?_, ?_⟩
  · have h31 : (3 : Int) - 1 = 2 := by norm_num
    have h2 : (2 : Int).toNat = 2 := rfl
    simp only [DecisionTreeBuilderSeq.Build, hw, h31, h2, growLoop, he1, he2]
  · rw [hroot2, hch0]
    simp only [List.map_cons, List.map_nil, f1, f2b]
    exact hperm
  · rw [hroot2, hch0]
    intro c hc
    have hcase : ∃ v : String, b2.store.children c ≠ [] ∧ b2.store.features c = [⟨a, v⟩] := by
      rcases List.mem_cons.1 hc with rfl | hc
      · exact ⟨k1, c1, f1⟩
      · rcases List.mem_cons.1 hc with rfl | hc
        · exact ⟨k2, c2, f2b⟩
        · exact absurd hc (List.not_mem_nil c)
    obtain ⟨v, hne, hfc⟩ := hcase
    refine ⟨hne, ?_⟩
    intro gch hg
    obtain ⟨f, hf1, hf2⟩ := hb2.inv.features_child c gch hg
    have hgood := (hb2.inv.features_good gch).2 f (by rw [hf1]; simp)
    rw [hfc] at hf2
    simp only [columns, List.map_cons, List.map_nil, List.mem_singleton] at hf2
    have hcol : f.ColumnIndex = b := by
      rcases hab with ⟨rfl, rfl⟩ | ⟨rfl, rfl⟩ <;> omega
    refine ⟨f.DimensionValue, ?_⟩
    rw [hf1, ← hcol]

/-- C9: for a data set of two features and a target (schema width 3) in which feature A, in
column `a`, takes the values `x`, `y` and predicts the target exactly (entropy 0 at the
root), feature B, in the other column `b`, takes the values `p`, `q` and is uncorrelated
with the target (entropy 1 at the root, and below 1 once A is fixed, each part then being
pure), `Build` of both builders gives the root one child per value of A, filtered on
column `a`, and gives every node of depth 1 children, all filtered on column `b`;
whichever of the columns 1 and 2 is `a`. -/
theorem perfect_predictor_first {σ : Type} (env : Env σ) (a b : Int)
    (hab : (a = 1 ∧ b = 2) ∨ (a = 2 ∧ b = 1))
    (hw : getSchemaWidth env.Next = some 3)
    (hAkeys : ((env.BreakDownSubtreeDimension [] a).Distribution.map Prod.fst).Perm ["x", "y"])
    (hA : env.computeEntropy (env.BreakDownSubtreeDimension [] a) = 0)
    (hB : env.computeEntropy (env.BreakDownSubtreeDimension [] b) = 1)
    (hsub : ∀ v : String, v = "x" ∨ v = "y" →
      ((env.BreakDownSubtreeDimension [⟨a, v⟩] b).Distribution.map Prod.fst).Perm ["p", "q"] ∧
      env.computeEntropy (env.BreakDownSubtreeDimension [⟨a, v⟩] b) < 1) :
    ∃ tS tP, DecisionTreeBuilderSeq.Build env NewSequentialDecisionTreeBuilder = some tS ∧
      DecisionTreeBuilderParallel.Build env NewParallelDecisionTreeBuilder = some tP ∧
      SplitsOnThen a b tS ∧ SplitsOnThen a b tP := by
  obtain ⟨t, ht, hshape⟩ := splits_on_then env a b hab hw hAkeys hA hB hsub
  refine ⟨t, t, ht, ?_, hshape, hshape⟩
  rw [parallel_Build_eq]
  exact ht

theorem perfect_predictor_first_witness :
    ∃ tS tP, DecisionTreeBuilderSeq.Build envAB NewSequentialDecisionTreeBuilder = some tS ∧
      DecisionTreeBuilderParallel.Build envAB NewParallelDecisionTreeBuilder = some tP ∧
      SplitsOnThen 1 2 tS ∧ SplitsOnThen 1 2 tP :=
  perfect_predictor_first envAB 1 2 (Or.inl ⟨rfl, rfl⟩) (by decide) (List.Perm.refl _)
    (by decide) (by decide)
    (by
      rintro v (rfl | rfl)
      · exact ⟨List.Perm.refl _, by decide⟩
      · exact ⟨List.Perm.refl _, by decide⟩)

/-! ## `appendChild` and `isLeaf` -/

/-- C12: for every node and every child pointer, `appendChild` succeeds and makes
`Children` the previous `Children` followed by the child; `Features`, the backing arrays
and every other node stay as they are, nothing about the child is checked, so that
appending the same child twice yields two entries; `isLeaf` is true exactly when `Children`
is empty, hence false after an `appendChild`. -/
theorem appendChild_appends_unchecked :
    (∀ (st : Store) (node child : Nat) (nd : DecisionTreeNode), st.nodes[node]? = some nd →
      ∃ st1, appendChild st node child = some st1 ∧
        st1.nodes[node]? = some ⟨nd.Features, nd.Children ++ [child]⟩ ∧
        st1.children node = st.children node ++ [child] ∧
        st1.arrays = st.arrays ∧ st1.features node = st.features node ∧
        (∀ m : Nat, m ≠ node → st1.nodes[m]? = st.nodes[m]?) ∧
        isLeaf st1 node = some false ∧
        (isLeaf st node = some true ↔ nd.Children = []) ∧
        ∃ st2, appendChild st1 node child = some st2 ∧
          st2.children node = st.children node ++ [child, child]) := by
  intro st node child nd hnd
  have hlt : node < st.nodes.length := (List.getElem?_eq_some.1 hnd).1
  have h1 : (st.nodes.set node ⟨nd.Features, nd.Children ++ [child]⟩)[node]? =
      some ⟨nd.Features, nd.Children ++ [child]⟩ := by
    rw [List.getElem?_set, if_pos rfl, if_pos hlt]
  refine ⟨⟨st.arrays, st.nodes.set node ⟨nd.Features, nd.Children ++ [child]⟩⟩, ?_, h1, ?_,
    rfl, ?_, ?_, ?_, ?_, ?_⟩
  · simp only [appendChild, hnd]
  · simp only [Store.children, h1, hnd]
  · simp only [Store.features, h1, hnd, Store.read]
  · intro m hm
    exact List.getElem?_set_ne (fun h => hm h.symm)
  · simp only [isLeaf, h1, List.length_append, List.length_cons, List.length_nil]
    rfl
  · simp only [isLeaf, hnd, Option.some.injEq, beq_iff_eq, List.length_eq_zero]
  · have hlt2 : node < (st.nodes.set node ⟨nd.Features, nd.Children ++ [child]⟩).length := by
      rw [List.length_set]
      exact hlt
    have h2 : ((st.nodes.set node ⟨nd.Features, nd.Children ++ [child]⟩).set node
        ⟨nd.Features, (nd.Children ++ [child]) ++ [child]⟩)[node]? =
        some ⟨nd.Features, (nd.Children ++ [child]) ++ [child]⟩ := by
      rw [List.getElem?_set, if_pos rfl, if_pos hlt2]
    refine ⟨⟨st.arrays, (st.nodes.set node ⟨nd.Features, nd.Children ++ [child]⟩).set node
      ⟨nd.Features, (nd.Children ++ [child]) ++ [child]⟩⟩, ?_, ?_⟩
    · simp only [appendChild, h1]
    · simp only [Store.children, hnd]
      rw [h2]
      simp

theorem appendChild_appends_unchecked_witness :
    ∃ st1, appendChild NewSequentialDecisionTreeBuilder.store 0 7 = some st1 ∧
      st1.nodes[0]? = some ⟨(DecisionTreeNode.mk ⟨0, 0, 0⟩ []).Features,
        (DecisionTreeNode.mk ⟨0, 0, 0⟩ []).Children ++ [7]⟩ ∧
      st1.children 0 = NewSequentialDecisionTreeBuilder.store.children 0 ++ [7] ∧
      st1.arrays = NewSequentialDecisionTreeBuilder.store.arrays ∧
      st1.features 0 = NewSequentialDecisionTreeBuilder.store.features 0 ∧
      (∀ m : Nat, m ≠ 0 → st1.nodes[m]? = NewSequentialDecisionTreeBuilder.store.nodes[m]?) ∧
      isLeaf st1 0 = some false ∧
      (isLeaf NewSequentialDecisionTreeBuilder.store 0 = some true ↔
        (DecisionTreeNode.mk ⟨0, 0, 0⟩ []).Children = []) ∧
      ∃ st2, appendChild st1 0 7 = some st2 ∧
        st2.children 0 = NewSequentialDecisionTreeBuilder.store.children 0 ++ [7, 7] :=
  appendChild_appends_unchecked NewSequentialDecisionTreeBuilder.store 0 7 ⟨⟨0, 0, 0⟩, []⟩ rfl

/-! ## The levels of a build -/

theorem growLoop_add (grow : Builder → Option Builder) (m : Nat) :
    ∀ (k : Nat) (b : Builder),
      growLoop grow (k + m) b = (growLoop grow k b).bind (growLoop grow m) := by
  intro k
  induction k with
  | zero =>
    intro b
    rw [Nat.zero_add]
    rfl
  | succ k ih =>
    intro b
    have h : k + 1 + m = (k + m) + 1 := by omega
    rw [h]
    simp only [growLoop]
    cases grow b with
    | none => rfl
    | some b1 => exact ih b1

theorem parallel_levels_eq {σ : Type} (env : Env σ) (numFeatures : Int) (k : Nat) :
    growLoop (fun b => DecisionTreeBuilderParallel.growTree env b numFeatures) k
      NewParallelDecisionTreeBuilder = afterLevels env numFeatures k := by
  have h : (fun b => DecisionTreeBuilderParallel.growTree env b numFeatures) =
      (fun b => DecisionTreeBuilderSeq.growTree env b numFeatures) := by
    funext b
    exact parallel_growTree_eq env b numFeatures
  rw [h]
  rfl

theorem afterLevels_spec {σ : Type} (env : Env σ) (numFeatures : Int)
    (hmax : numFeatures ≤ (maxAlloc : Int)) (k : Nat)
    (hk : k ≠ 0 → (k : Int) ≤ numFeatures) :
    ∃ bk, afterLevels env numFeatures k = some bk ∧
      bk.root = NewSequentialDecisionTreeBuilder.root ∧ LevelInv numFeatures k bk := by
  obtain ⟨bk, he, hr, hb, _⟩ := growLoop_spec env numFeatures hmax (fun _ _ => True)
    (fun _ _ _ _ _ _ _ _ => trivial) k 0 NewSequentialDecisionTreeBuilder (LevelInv.init _)
    trivial (by
      intro h
      rw [Nat.zero_add]
      exact hk h)
  rw [Nat.zero_add] at hb
  exact ⟨bk, he, hr, hb⟩

theorem Build_eq_afterLevels {σ : Type} (env : Env σ) (width : Int)
    (hw : getSchemaWidth env.Next = some width) :
    DecisionTreeBuilderSeq.Build env NewSequentialDecisionTreeBuilder =
      afterLevels env (width - 1) (width - 1).toNat ∧
    DecisionTreeBuilderParallel.Build env NewParallelDecisionTreeBuilder =
      afterLevels env (width - 1) (width - 1).toNat := by
  have h : DecisionTreeBuilderSeq.Build env NewSequentialDecisionTreeBuilder =
      afterLevels env (width - 1) (width - 1).toNat := by
    simp only [DecisionTreeBuilderSeq.Build, hw, afterLevels]
  refine ⟨h, ?_⟩
  rw [parallel_Build_eq]
  exact h

theorem LevelInv.frontier_length {numFeatures : Int} {k : Nat} {b : Builder}
    (hb : LevelInv numFeatures k b) (l : Nat) (hl : l ∈ b.currentLeaves) :
    (b.store.features l).length = k ∧ b.store.children l = [] := by
  obtain ⟨lf, h1, h2, h3⟩ := hb.frontier l hl
  simp only [Store.features, Store.children, h1, Store.read_length (hb.inv.backed l lf h1)]
  exact ⟨h2, h3⟩

/-- C11: for a data set of schema width `W`, `Build` of either builder is the loop that
applies `growTree` with `numFeatures = W-1` exactly `W-1` times (no time for `W < 1`) and
returns the root made at construction; after `k` of these calls every current leaf has a
path of exactly `k` filters, so no node of the returned tree has more than `W-1` filters;
for `W = 1` the result is the bare root, with empty path and without children. -/
theorem build_grows_width_minus_one_levels {σ : Type} (env : Env σ) (width : Int)
    (hw : getSchemaWidth env.Next = some width) :
    DecisionTreeBuilderSeq.Build env NewSequentialDecisionTreeBuilder =
      growLoop (fun b => DecisionTreeBuilderSeq.growTree env b (width - 1)) (width - 1).toNat
        NewSequentialDecisionTreeBuilder ∧
    DecisionTreeBuilderParallel.Build env NewParallelDecisionTreeBuilder =
      growLoop (fun b => DecisionTreeBuilderParallel.growTree env b (width - 1))
        (width - 1).toNat NewParallelDecisionTreeBuilder ∧
    (1 ≤ width → (((width - 1).toNat : Nat) : Int) = width - 1) ∧
    (∀ k : Nat, k ≤ (width - 1).toNat →
      ∃ bk, growLoop (fun b => DecisionTreeBuilderSeq.growTree env b (width - 1)) k
          NewSequentialDecisionTreeBuilder = some bk ∧
        growLoop (fun b => DecisionTreeBuilderParallel.growTree env b (width - 1)) k
          NewParallelDecisionTreeBuilder = some bk ∧
        ∀ l ∈ bk.currentLeaves, (bk.store.features l).length = k) ∧
    (∃ b, DecisionTreeBuilderSeq.Build env NewSequentialDecisionTreeBuilder = some b ∧
      DecisionTreeBuilderParallel.Build env NewParallelDecisionTreeBuilder = some b ∧
      b.root = NewSequentialDecisionTreeBuilder.root ∧
      ∀ n : Nat, Reachable b.store b.root n →
        (b.store.features n).length ≤ (width - 1).toNat ∧
        (1 ≤ width → ((b.store.features n).length : Int) ≤ width - 1)) ∧
    (width = 1 →
      DecisionTreeBuilderSeq.Build env NewSequentialDecisionTreeBuilder =
        some NewSequentialDecisionTreeBuilder ∧
      DecisionTreeBuilderParallel.Build env NewParallelDecisionTreeBuilder =
        some NewParallelDecisionTreeBuilder ∧
      NewSequentialDecisionTreeBuilder.store.features NewSequentialDecisionTreeBuilder.root = [] ∧
      NewSequentialDecisionTreeBuilder.store.children NewSequentialDecisionTreeBuilder.root =
        []) := by
  obtain ⟨hS, hP⟩ := Build_eq_afterLevels env width hw
  refine ⟨hS, ?_, ?_, ?_, ?_, ?_⟩
  · rw [hP, parallel_levels_eq]
  · intro h1
    omega
  · intro k hk
    obtain ⟨bk, he, _, hb⟩ := afterLevels_spec env (width - 1)
        (width_fits env width hw) k (by intro h; omega)
    refine ⟨bk, he, ?_, fun l hl => (hb.frontier_length l hl).1⟩
    rw [parallel_levels_eq]
    exact he
  · obtain ⟨b, he, hr, hb⟩ := afterLevels_spec env (width - 1) (width_fits env width hw)
      (width - 1).toNat
      (by intro h; omega)
    refine ⟨b, hS.trans he, hP.trans he, hr, ?_⟩
    intro n _
    have hlen : (b.store.features n).length ≤ (width - 1).toNat := by
      unfold Store.features
      cases hn : b.store.nodes[n]? with
      | none => simp
      | some nd =>
        simp only [Store.read_length (hb.inv.backed n nd hn)]
        exact hb.inv.depth n nd hn
    exact ⟨hlen, fun h1 => by omega⟩
  · intro h1
    subst h1
    have h0 : ((1 : Int) - 1).toNat = 0 := rfl
    rw [hS, hP, h0]
    exact ⟨rfl, rfl, rfl, rfl⟩

theorem build_grows_width_minus_one_levels_witness :
    DecisionTreeBuilderSeq.Build envFour NewSequentialDecisionTreeBuilder =
      growLoop (fun b => DecisionTreeBuilderSeq.growTree envFour b (5 - 1)) ((5 : Int) - 1).toNat
        NewSequentialDecisionTreeBuilder :=
  (build_grows_width_minus_one_levels envFour 5 (by decide)).1

/-! ## The calls of `getRemainingFeatures` during a build -/

theorem remaining_nonempty (path : List DimensionFilter) (numFeatures : Int)
    (hmax : numFeatures ≤ (maxAlloc : Int))
    (hg : GoodPath numFeatures path) (hlen : (path.length : Int) < numFeatures) :
    ∃ rem, getRemainingFeatures path numFeatures = some rem ∧ rem ≠ [] := by
  obtain ⟨rem, hrem, _, hm⟩ := getRemainingFeatures_spec path numFeatures (by omega) hmax hg.2
  refine ⟨rem, hrem, ?_⟩
  intro hnil
  have hsub : Finset.Icc 1 numFeatures ⊆ (columns path).toFinset := by
    intro c hc
    rw [Finset.mem_Icc] at hc
    rw [List.mem_toFinset]
    by_contra hnot
    have := (hm c).2 ⟨hc.1, hc.2, hnot⟩
    rw [hnil] at this
    exact absurd this (List.not_mem_nil c)
  have h1 := Finset.card_le_card hsub
  have h2 : (columns path).toFinset.card ≤ path.length :=
    (List.toFinset_card_le (columns path)).trans (by simp [columns])
  rw [Int.card_Icc] at h1
  omega

/-! ## The depth of the leaves -/

/-- C6, amended: in the tree that `Build` of either builder returns for a data set of schema
width `W`, every leaf has a path of exactly `W-1` filters (of no filter for `W = 0`, where
`Build` makes no call of `growTree`), or it is a node of fewer than `W-1` filters for which
`getRemainingFeatures` returns columns and the reduction loop ends with a winning breakdown
without any value: no remaining column has entropy below 1.0, or the selected breakdown is
empty. -/
theorem leaf_depth_unless_nothing_selected {σ : Type} (env : Env σ) (width : Int)
    (hw : getSchemaWidth env.Next = some width) :
    ∃ b, DecisionTreeBuilderSeq.Build env NewSequentialDecisionTreeBuilder = some b ∧
      DecisionTreeBuilderParallel.Build env NewParallelDecisionTreeBuilder = some b ∧
      ∀ n : Nat, Reachable b.store b.root n → b.store.children n = [] →
        (b.store.features n).length = (width - 1).toNat ∨
        (((b.store.features n).length : Int) < width - 1 ∧
          ∃ rem, getRemainingFeatures (b.store.features n) (width - 1) = some rem ∧ rem ≠ [] ∧
            (selectBest env (b.store.features n) rem).bestBreakdown.Distribution = []) := by
  have hfit := width_fits env width hw
  obtain ⟨b1, hs, hp, _, hb, hq⟩ := Build_spec env width hw
    (fun k b => ∀ (n : Nat) (nd : DecisionTreeNode), b.store.nodes[n]? = some nd →
      nd.Features.len < k → nd.Children ≠ [] ∨
        ∃ rem, getRemainingFeatures (b.store.read nd.Features) (width - 1) = some rem ∧
          rem ≠ [] ∧
          (selectBest env (b.store.read nd.Features) rem).bestBreakdown.Distribution = [])
    (by
      intro k b b1 hb hq hk hb1 g n nd1 hn hlt
      have hvalid : ∀ l ∈ b.currentLeaves, l < b.store.nodes.length := by
        intro l hl
        obtain ⟨lf, a, _⟩ := hb.frontier l hl
        exact (List.getElem?_eq_some.1 a).1
      have hfr : ∀ l ∈ b.currentLeaves, ∃ lf : DecisionTreeNode,
          b.store.nodes[l]? = some lf ∧ lf.Features.len = k := by
        intro l hl
        obtain ⟨lf, a, c, _⟩ := hb.frontier l hl
        exact ⟨lf, a, c⟩
      obtain ⟨_, f2, f3, _⟩ := g.facts hvalid
      by_cases e : b.store.nodes.length ≤ n
      · have := (f3 n nd1 hn e).2.1
        omega
      · have hn0 : n < b.store.nodes.length := by omega
        obtain ⟨nd, hnd⟩ : ∃ nd, b.store.nodes[n]? = some nd :=
          ⟨_, List.getElem?_eq_getElem hn0⟩
        obtain ⟨nd1b, a, c, _, d⟩ := f2 n nd hnd
        rw [hn] at a
        have := Option.some.inj a
        subst this
        rw [c] at hlt ⊢
        have hbk := hb.inv.backed n nd hnd
        have hle := hb.inv.depth n nd hnd
        have hread : b1.store.read nd.Features = b.store.read nd.Features :=
          (g.level_stable nd.Features hbk).2 hle
        rw [hread]
        by_cases e2 : nd.Features.len < k
        · rcases hq n nd hnd e2 with h | h
          · exact Or.inl (d h)
          · exact Or.inr h
        · have hlen : nd.Features.len = k := by omega
          have hmem := hb.complete n nd hnd hlen
          have hgood := hb.inv.good n nd hnd
          obtain ⟨rem, hrem, hne⟩ := remaining_nonempty (b.store.read nd.Features)
            (width - 1) hfit hgood (by
              rw [Store.read_length hbk, hlen]
              exact hk)
          by_cases hd : (selectBest env (b.store.read nd.Features)
              rem).bestBreakdown.Distribution = []
          · exact Or.inr ⟨rem, hrem, hne, hd⟩
          · left
            obtain ⟨nd2, a2, c2⟩ := g.children_nonempty hfr n hmem nd hnd (by
              intro rem2 hrem2
              rw [hrem] at hrem2
              have := Option.some.inj hrem2
              subst this
              exact hd)
            rw [hn] at a2
            have := Option.some.inj a2
            subst this
            exact c2)
    (by
      intro n nd _ hlt
      exact absurd hlt (Nat.not_lt_zero _))
  refine ⟨b1, hs, hp, ?_⟩
  intro n hreach hleaf
  obtain ⟨r, hr, _⟩ := hb.root
  have hv := hreach.valid hb.inv (List.getElem?_eq_some.1 hr).1
  obtain ⟨nd, hnd⟩ : ∃ nd, b1.store.nodes[n]? = some nd :=
    ⟨_, List.getElem?_eq_getElem hv⟩
  have hch : nd.Children = [] := by
    simpa only [Store.children, hnd] using hleaf
  have hle := hb.inv.depth n nd hnd
  have hfe : b1.store.features n = b1.store.read nd.Features := by
    simp only [Store.features, hnd]
  have hlen : (b1.store.features n).length = nd.Features.len := by
    rw [hfe, Store.read_length (hb.inv.backed n nd hnd)]
  by_cases e : nd.Features.len < (width - 1).toNat
  · right
    rcases hq n nd hnd e with h | h
    · exact absurd hch h
    · rw [hfe]
      refine ⟨?_, h⟩
      rw [Store.read_length (hb.inv.backed n nd hnd)]
      omega
  · left
    rw [hlen]
    omega

theorem leaf_depth_unless_nothing_selected_witness :
    ∃ b, DecisionTreeBuilderSeq.Build envAB NewSequentialDecisionTreeBuilder = some b ∧
      DecisionTreeBuilderParallel.Build envAB NewParallelDecisionTreeBuilder = some b ∧
      ∀ n : Nat, Reachable b.store b.root n → b.store.children n = [] →
        (b.store.features n).length = ((3 : Int) - 1).toNat ∨
        (((b.store.features n).length : Int) < 3 - 1 ∧
          ∃ rem, getRemainingFeatures (b.store.features n) (3 - 1) = some rem ∧ rem ≠ [] ∧
            (selectBest envAB (b.store.features n) rem).bestBreakdown.Distribution = []) :=
  leaf_depth_unless_nothing_selected envAB 3 (by decide)

/-! ## When `getRemainingFeatures` returns -/

theorem markExists_none (path : List DimensionFilter) :
    ∀ ex : List Bool,
      (∃ f ∈ path, ¬ (1 ≤ f.ColumnIndex ∧ f.ColumnIndex ≤ (ex.length : Int))) →
      markExists ex path = none := by
  induction path with
  | nil =>
    rintro ex ⟨f, hf, _⟩
    exact absurd hf (List.not_mem_nil f)
  | cons f rest ih =>
    rintro ex ⟨g, hg, hbad⟩
    by_cases hc : 0 ≤ f.ColumnIndex - 1 ∧ f.ColumnIndex - 1 < (ex.length : Int)
    · simp only [markExists, hc, and_self, if_true]
      apply ih
      rcases List.mem_cons.1 hg with rfl | hg
      · exact absurd ⟨by omega, by omega⟩ hbad
      · exact ⟨g, hg, by simpa using hbad⟩
    · simp only [markExists, hc, if_false]

theorem getRemainingFeatures_ne_none_iff (path : List DimensionFilter) (numFeatures : Int) :
    getRemainingFeatures path numFeatures ≠ none ↔
      (0 ≤ numFeatures ∧ numFeatures ≤ (maxAlloc : Int) ∧
        ∀ f ∈ path, 1 ≤ f.ColumnIndex ∧ f.ColumnIndex ≤ numFeatures) := by
  constructor
  · intro h
    by_contra hnot
    apply h
    by_cases h0 : numFeatures < 0 ∨ (maxAlloc : Int) < numFeatures
    · simp only [getRemainingFeatures, h0, if_true]
    · have hbad : ∃ f ∈ path, ¬ (1 ≤ f.ColumnIndex ∧ f.ColumnIndex ≤ numFeatures) := by
        by_contra hall
        apply hnot
        refine ⟨by omega, by omega, ?_⟩
        intro f hf
        by_contra hf2
        exact hall ⟨f, hf, hf2⟩
      obtain ⟨f, hf, hf2⟩ := hbad
      have hm := markExists_none path (List.replicate numFeatures.toNat false)
        ⟨f, hf, by
          simp only [List.length_replicate]
          intro hin
          apply hf2
          omega⟩
      simp only [getRemainingFeatures, h0, if_false, hm]
  · rintro ⟨h0, hmax, hp⟩
    obtain ⟨rem, hrem, _, _⟩ := getRemainingFeatures_spec path numFeatures h0 hmax hp
    rw [hrem]
    exact Option.some_ne_none rem

theorem frontier_call_state {σ : Type} (env : Env σ) (numFeatures : Int)
    (hmax : numFeatures ≤ (maxAlloc : Int)) (k : Nat)
    (hk : (k : Int) < numFeatures) (bk : Builder) (hb : LevelInv numFeatures k bk)
    (pre : List Nat) (l : Nat) (post : List Nat) (hfr : bk.currentLeaves = pre ++ l :: post) :
    ∃ st nl chs, growLeaves env numFeatures pre (bk.store, []) = some (st, nl) ∧
      runAggregators env numFeatures pre (bk.store, []) = some (st, chs) ∧
      GoodPath numFeatures (st.features l) ∧ (st.features l).length = k ∧
      st.features l = bk.store.features l := by
  have hmem : ∀ x ∈ pre, ∃ lf : DecisionTreeNode,
      bk.store.nodes[x]? = some lf ∧ lf.Features.len = k := by
    intro x hx
    obtain ⟨lf, h1, h2, _⟩ := hb.frontier x (by rw [hfr]; exact List.mem_append_left _ hx)
    exact ⟨lf, h1, h2⟩
  obtain ⟨st1, new, he, hinv1, g⟩ :=
    growLeaves_spec env numFeatures (by omega) hmax k pre bk.store [] hb.inv.mono hmem
  obtain ⟨_, f2, _, _⟩ := g.facts (fun x hx => by
    obtain ⟨lf, h1, _⟩ := hmem x hx
    exact (List.getElem?_eq_some.1 h1).1)
  obtain ⟨lf, h1, h2, _⟩ := hb.frontier l (by rw [hfr]; simp)
  obtain ⟨nd1, h3, h4, _, _⟩ := f2 l lf h1
  have hstab := (g.level_stable lf.Features (hb.inv.backed l lf h1)).2 (le_of_eq h2)
  have hfeat : st1.features l = st1.read lf.Features := by
    simp only [Store.features, h3, h4]
  have hpar := runAggregators_eq_growLeaves env numFeatures pre bk.store []
  rw [List.flatten_nil, he] at hpar
  cases hrun : runAggregators env numFeatures pre (bk.store, []) with
  | none =>
    rw [hrun] at hpar
    exact absurd hpar (by simp)
  | some r =>
    rw [hrun] at hpar
    simp only [Option.map_some', Option.some.injEq, Prod.mk.injEq, List.nil_append] at hpar
    refine ⟨st1, new, r.2, by rw [he, List.nil_append], ?_, ?_, ?_, ?_⟩
    · rw [← hpar.1]
    · rw [hfeat, ← h4]
      exact hinv1.good l nd1 h3
    · rw [hfeat, ← h4, Store.read_length (hinv1.backed l nd1 h3), h4]
      exact h2
    · rw [hfeat, hstab]
      simp only [Store.features, h1]

/-- C14: during `Build` of either builder on a data set of schema width `W`, at every call
of `growTree` (call `k + 1` starts in the state after `k` levels) and for every current leaf,
in the store in which the loop body reaches that leaf (after the leaves before it have been
expanded), `getRemainingFeatures(leaf.Features, W-1)` returns a non-empty list. -/
theorem remaining_nonempty_at_every_call {σ : Type} (env : Env σ) (width : Int)
    (hw : getSchemaWidth env.Next = some width) (k : Nat) (hk : k < (width - 1).toNat) :
    ∃ bk, growLoop (fun b => DecisionTreeBuilderSeq.growTree env b (width - 1)) k
        NewSequentialDecisionTreeBuilder = some bk ∧
      growLoop (fun b => DecisionTreeBuilderParallel.growTree env b (width - 1)) k
        NewParallelDecisionTreeBuilder = some bk ∧
      DecisionTreeBuilderSeq.Build env NewSequentialDecisionTreeBuilder =
        growLoop (fun b => DecisionTreeBuilderSeq.growTree env b (width - 1))
          ((width - 1).toNat - k) bk ∧
      ∀ (pre : List Nat) (l : Nat) (post : List Nat), bk.currentLeaves = pre ++ l :: post →
        ∃ st nl chs rem,
          growLeaves env (width - 1) pre (bk.store, []) = some (st, nl) ∧
          runAggregators env (width - 1) pre (bk.store, []) = some (st, chs) ∧
          getRemainingFeatures (st.features l) (width - 1) = some rem ∧ rem ≠ [] := by
  obtain ⟨bk, he, _, hb⟩ := afterLevels_spec env (width - 1)
      (width_fits env width hw) k (by intro h; omega)
  refine ⟨bk, he, ?_, ?_, ?_⟩
  · rw [parallel_levels_eq]
    exact he
  · rw [(Build_eq_afterLevels env width hw).1]
    have hsplit : (width - 1).toNat = k + ((width - 1).toNat - k) := by omega
    have h := growLoop_add (fun b => DecisionTreeBuilderSeq.growTree env b (width - 1))
      ((width - 1).toNat - k) k NewSequentialDecisionTreeBuilder
    rw [← hsplit] at h
    unfold afterLevels at he ⊢
    rw [h, he]
    rfl
  · intro pre l post hfr
    obtain ⟨st, nl, chs, h1, h2, h3, h4, _⟩ :=
      frontier_call_state env (width - 1)
          (width_fits env width hw) k (by omega) bk hb pre l post hfr
    obtain ⟨rem, h5, h6⟩ := remaining_nonempty (st.features l) (width - 1)
        (width_fits env width hw) h3
      (by rw [h4]; omega)
    exact ⟨st, nl, chs, rem, h1, h2, h5, h6⟩

theorem remaining_nonempty_at_every_call_witness :
    ∃ bk, growLoop (fun b => DecisionTreeBuilderSeq.growTree envFour b (5 - 1)) 3
        NewSequentialDecisionTreeBuilder = some bk ∧
      growLoop (fun b => DecisionTreeBuilderParallel.growTree envFour b (5 - 1)) 3
        NewParallelDecisionTreeBuilder = some bk ∧
      DecisionTreeBuilderSeq.Build envFour NewSequentialDecisionTreeBuilder =
        growLoop (fun b => DecisionTreeBuilderSeq.growTree envFour b (5 - 1))
          (((5 : Int) - 1).toNat - 3) bk ∧
      ∀ (pre : List Nat) (l : Nat) (post : List Nat), bk.currentLeaves = pre ++ l :: post →
        ∃ st nl chs rem,
          growLeaves envFour (5 - 1) pre (bk.store, []) = some (st, nl) ∧
          runAggregators envFour (5 - 1) pre (bk.store, []) = some (st, chs) ∧
          getRemainingFeatures (st.features l) (5 - 1) = some rem ∧ rem ≠ [] :=
  remaining_nonempty_at_every_call envFour 5 (by decide) 3 (by decide)

/-- C19 as stated fails for the empty path and `numFeatures = 1 << 62`: `numFeatures >= 0`
and every filter of the path (there is none) has its column in `1..numFeatures`, yet
`make([]bool, numFeatures)` panics with a length out of range, so the function does not
return. -/
theorem getRemainingFeatures_safe_counterexample :
    ¬ (getRemainingFeatures [] 4611686018427387904 ≠ none ↔
        ((0 : Int) ≤ 4611686018427387904 ∧
          ∀ f ∈ ([] : List DimensionFilter),
            1 ≤ f.ColumnIndex ∧ f.ColumnIndex ≤ 4611686018427387904)) := by
  intro h
  exact h.2 ⟨by decide, fun f hf => absurd hf (List.not_mem_nil f)⟩ (by decide)

/-- C19, amended: `getRemainingFeatures(path, numFeatures)` returns without a panic exactly
when `numFeatures >= 0`, `numFeatures` is at most the allocation limit `maxAlloc` of `make`,
and every filter of the path has its `ColumnIndex` in `1..numFeatures`; during `Build` of
either builder all of this holds at every call, in the store in which the loop body reaches
the leaf, and `Build` returns whenever `getSchemaWidth` does. -/
theorem getRemainingFeatures_safe_iff_in_range :
    (∀ (path : List DimensionFilter) (numFeatures : Int),
      getRemainingFeatures path numFeatures ≠ none ↔
        (0 ≤ numFeatures ∧ numFeatures ≤ (maxAlloc : Int) ∧
          ∀ f ∈ path, 1 ≤ f.ColumnIndex ∧ f.ColumnIndex ≤ numFeatures)) ∧
    (∀ (σ : Type) (env : Env σ) (width : Int), getSchemaWidth env.Next = some width →
      (∃ b, DecisionTreeBuilderSeq.Build env NewSequentialDecisionTreeBuilder = some b ∧
        DecisionTreeBuilderParallel.Build env NewParallelDecisionTreeBuilder = some b) ∧
      ∀ k : Nat, k < (width - 1).toNat →
        ∃ bk, growLoop (fun b => DecisionTreeBuilderSeq.growTree env b (width - 1)) k
            NewSequentialDecisionTreeBuilder = some bk ∧
          growLoop (fun b => DecisionTreeBuilderParallel.growTree env b (width - 1)) k
            NewParallelDecisionTreeBuilder = some bk ∧
          ∀ (pre : List Nat) (l : Nat) (post : List Nat),
            bk.currentLeaves = pre ++ l :: post →
            ∃ st nl chs,
              growLeaves env (width - 1) pre (bk.store, []) = some (st, nl) ∧
              runAggregators env (width - 1) pre (bk.store, []) = some (st, chs) ∧
              0 ≤ width - 1 ∧ width - 1 ≤ (maxAlloc : Int) ∧
              (∀ f ∈ st.features l, 1 ≤ f.ColumnIndex ∧ f.ColumnIndex ≤ width - 1) ∧
              getRemainingFeatures (st.features l) (width - 1) ≠ none) := by
  refine ⟨getRemainingFeatures_ne_none_iff, ?_⟩
  intro σ env width hw
  constructor
  · obtain ⟨b, he, _, _⟩ := afterLevels_spec env (width - 1) (width_fits env width hw)
      (width - 1).toNat
      (by intro h; omega)
    obtain ⟨hS, hP⟩ := Build_eq_afterLevels env width hw
    exact ⟨b, hS.trans he, hP.trans he⟩
  · intro k hk
    have hfit := width_fits env width hw
    obtain ⟨bk, he, _, hb⟩ := afterLevels_spec env (width - 1) hfit k (by intro h; omega)
    refine ⟨bk, he, ?_, ?_⟩
    · rw [parallel_levels_eq]
      exact he
    · intro pre l post hfr
      obtain ⟨st, nl, chs, h1, h2, h3, _, _⟩ :=
        frontier_call_state env (width - 1) hfit k (by omega) bk hb pre l post hfr
      exact ⟨st, nl, chs, h1, h2, by omega, hfit, h3.2,
        (getRemainingFeatures_ne_none_iff _ _).2 ⟨by omega, hfit, h3.2⟩⟩

theorem getRemainingFeatures_safe_iff_in_range_witness :
    ∃ b, DecisionTreeBuilderSeq.Build envFour NewSequentialDecisionTreeBuilder = some b ∧
      DecisionTreeBuilderParallel.Build envFour NewParallelDecisionTreeBuilder = some b :=
  (getRemainingFeatures_safe_iff_in_range.2 Nat envFour 5 (by decide)).1

/-! ## Leaves that receive no children -/

theorem growLeaf_no_keys {σ : Type} (env : Env σ) (numFeatures : Int) (st : Store)
    (leaf : Nat) (lf : DecisionTreeNode) (nl : List Nat) (rem : List Int)
    (hleaf : st.nodes[leaf]? = some lf)
    (hrem : getRemainingFeatures (st.read lf.Features) numFeatures = some rem)
    (hno : (selectBest env (st.read lf.Features) rem).bestBreakdown.Distribution = []) :
    growLeaf env numFeatures (st, nl) leaf = some (st, nl) ∧
    AggregatorTask.execute env st leaf numFeatures = some (st, []) := by
  have h1 : growLeaf env numFeatures (st, nl) leaf = some (st, nl) := by
    simp only [growLeaf, hleaf, hrem, hno, List.map_nil, addChildren]
  have h2 : growLeaf env numFeatures (st, []) leaf = some (st, []) := by
    simp only [growLeaf, hleaf, hrem, hno, List.map_nil, addChildren]
  exact ⟨h1, by rw [execute_eq_growLeaf, h2]⟩

theorem select_none {σ : Type} (env : Env σ) (path : List DimensionFilter) (rem : List Int)
    (hpw : rem.Pairwise (· < ·))
    (hall : ∀ c ∈ rem, 1 ≤ env.computeEntropy (env.BreakDownSubtreeDimension path c)) :
    selectBest env path rem = Best.init := by
  rcases foldl_selectStep_spec env path rem Best.init hpw with ⟨he, _⟩ | ⟨h1, _, h3, h4, _⟩
  · exact he
  · have h5 := hall _ h1
    rw [← h3] at h5
    exact absurd h4 (not_lt.2 h5)

theorem LevelGrown.children_kept {σ : Type} {env : Env σ} {numFeatures : Int} {k : Nat}
    {todo : List Nat} {st st1 : Store} {new : List Nat}
    (h : LevelGrown env numFeatures k todo st st1 new) :
    ∀ (l : Nat) (lf : DecisionTreeNode), st.nodes[l]? = some lf → lf.Features.len = k →
      st.Backed lf.Features →
      (∀ rem, getRemainingFeatures (st.read lf.Features) numFeatures = some rem →
        (selectBest env (st.read lf.Features) rem).bestBreakdown.Distribution = []) →
      st1.nodes[l]? = some lf ∧ st1.read lf.Features = st.read lf.Features := by
  induction h with
  | nil st =>
    intro l lf hlf _ _ _
    exact ⟨hlf, rfl⟩
  | @cons leaf rest st st1 st2 new newRest hleaf _ ih =>
    intro l lf hlf hk hbk hno
    obtain ⟨lf0, rem, _, _, hlf0, _, hrem, g⟩ := hleaf
    have hst : st1.read lf.Features = st.read lf.Features :=
      g.stable lf.Features hbk (le_of_eq hk)
    have hnode : st1.nodes[l]? = some lf := by
      rw [g.old l lf hlf]
      by_cases e : l = leaf
      · subst e
        rw [hlf] at hlf0
        have := Option.some.inj hlf0
        subst this
        have hnew : new = [] := by
          rw [g.new_eq, hno rem hrem]
          rfl
        rw [if_pos rfl, hnew, List.append_nil]
      · rw [if_neg e]
    obtain ⟨h1, h2⟩ := ih l lf hnode hk (g.backed _ hbk) (by
      intro rem1 hrem1
      rw [hst] at hrem1 ⊢
      exact hno rem1 hrem1)
    exact ⟨h1, h2.trans hst⟩

theorem growLoop_succ_right (grow : Builder → Option Builder) (k : Nat) (b : Builder) :
    growLoop grow (k + 1) b = (growLoop grow k b).bind grow := by
  rw [growLoop_add grow 1 k b]
  congr 1
  funext b1
  simp only [growLoop]
  cases grow b1 <;> rfl

theorem no_keys_stays_leaf {σ : Type} (env : Env σ) (width : Int)
    (hw : getSchemaWidth env.Next = some width) (k : Nat) (hk : k < (width - 1).toNat)
    (bk : Builder) (he : afterLevels env (width - 1) k = some bk) (l : Nat)
    (hl : l ∈ bk.currentLeaves)
    (hno : ∀ rem, getRemainingFeatures (bk.store.features l) (width - 1) = some rem →
      (selectBest env (bk.store.features l) rem).bestBreakdown.Distribution = []) :
    ∃ b, DecisionTreeBuilderSeq.Build env NewSequentialDecisionTreeBuilder = some b ∧
      DecisionTreeBuilderParallel.Build env NewParallelDecisionTreeBuilder = some b ∧
      b.store.children l = [] ∧ b.store.features l = bk.store.features l ∧
      (b.store.features l).length = k ∧
      LevelInv (width - 1) (width - 1).toNat b := by
  obtain ⟨bk1, he1, _, hb⟩ := afterLevels_spec env (width - 1)
      (width_fits env width hw) k (by intro h; omega)
  rw [he] at he1
  have := Option.some.inj he1
  subst this
  obtain ⟨lf, h1, h2, h3⟩ := hb.frontier l hl
  have hfeat : bk.store.features l = bk.store.read lf.Features := by
    simp only [Store.features, h1]
  rw [hfeat] at hno
  obtain ⟨b1, hg1, _, hb1, g⟩ := growTree_spec env (width - 1) (by omega)
      (width_fits env width hw) k bk hb
  obtain ⟨hn1, hr1⟩ := g.children_kept l lf h1 h2 (hb.inv.backed l lf h1) hno
  obtain ⟨b2, hg2, _, hb2, _, nd2, hq1, hq2, hq3, hq4⟩ := growLoop_spec env (width - 1)
    (width_fits env width hw)
    (fun j b => k < j ∧ ∃ nd : DecisionTreeNode, b.store.nodes[l]? = some nd ∧
      nd.Features = lf.Features ∧ nd.Children = [] ∧
      b.store.read lf.Features = bk.store.read lf.Features)
    (by
      rintro j b b3 hbj ⟨hkj, nd, hnd, hf, hc, hr⟩ _ _ g3
      refine ⟨by omega, ?_⟩
      have hvalid : ∀ x ∈ b.currentLeaves, x < b.store.nodes.length := by
        intro x hx
        obtain ⟨lx, a, _⟩ := hbj.frontier x hx
        exact (List.getElem?_eq_some.1 a).1
      obtain ⟨_, f2, _, _⟩ := g3.facts hvalid
      obtain ⟨nd3, a, c, d, _⟩ := f2 l nd hnd
      have hnot : l ∉ b.currentLeaves := by
        intro hmem
        obtain ⟨lx, a1, a2, _⟩ := hbj.frontier l hmem
        rw [hnd] at a1
        have := Option.some.inj a1
        subst this
        rw [hf] at a2
        omega
      refine ⟨nd3, a, c.trans hf, (d hnot).trans hc, ?_⟩
      have hbk2 : b.store.Backed lf.Features := by
        rw [← hf]
        exact hbj.inv.backed l nd hnd
      rw [(g3.level_stable lf.Features hbk2).2 (by omega)]
      exact hr)
    ((width - 1).toNat - (k + 1)) (k + 1) b1 hb1
    ⟨Nat.lt_succ_self k, lf, hn1, rfl, h3, hr1⟩
    (by intro _; omega)
  have hsum : k + 1 + ((width - 1).toNat - (k + 1)) = (width - 1).toNat := by omega
  rw [hsum] at hb2
  have hbuild : afterLevels env (width - 1) (width - 1).toNat = some b2 := by
    unfold afterLevels at he ⊢
    rw [← hsum, growLoop_add, growLoop_succ_right, he]
    simp only [Option.bind_eq_bind, Option.some_bind, hg1, hg2]
  obtain ⟨hS, hP⟩ := Build_eq_afterLevels env width hw
  have hf2 : b2.store.features l = bk.store.features l := by
    simp only [Store.features, hq1, hq2, hq4, h1]
  refine ⟨b2, hS.trans hbuild, hP.trans hbuild, ?_, hf2, ?_, hb2⟩
  · simp only [Store.children, hq1, hq3]
  · rw [hf2]
    exact (hb.frontier_length l hl).1

theorem reachable_of_no_children {st : Store} {l n : Nat} (hc : st.children l = [])
    (h : Reachable st l n) : n = l := by
  induction h with
  | root => rfl
  | @child p c _ hpc ih =>
    rw [ih, hc] at hpc
    exact absurd hpc (List.not_mem_nil c)

/-- C15: if the winning breakdown of a current leaf has no value, the loop body of `growTree`
and `AggregatorTask.execute` return without panic, leave the store as it is (no child is
appended) and add nothing to the new leaves, respectively to `task.Children`; in the tree
that `Build` of either builder returns the node has no children, hence no descendants. -/
theorem zero_values_no_children {σ : Type} (env : Env σ) (width : Int)
    (hw : getSchemaWidth env.Next = some width) :
    (∀ (st : Store) (leaf : Nat) (lf : DecisionTreeNode) (nl : List Nat) (rem : List Int),
      st.nodes[leaf]? = some lf →
      getRemainingFeatures (st.read lf.Features) (width - 1) = some rem →
      (selectBest env (st.read lf.Features) rem).bestBreakdown.Distribution = [] →
      growLeaf env (width - 1) (st, nl) leaf = some (st, nl) ∧
      AggregatorTask.execute env st leaf (width - 1) = some (st, [])) ∧
    (∀ (k : Nat) (bk : Builder) (l : Nat), k < (width - 1).toNat →
      growLoop (fun b => DecisionTreeBuilderSeq.growTree env b (width - 1)) k
        NewSequentialDecisionTreeBuilder = some bk →
      l ∈ bk.currentLeaves →
      (∀ rem, getRemainingFeatures (bk.store.features l) (width - 1) = some rem →
        (selectBest env (bk.store.features l) rem).bestBreakdown.Distribution = []) →
      ∃ b, DecisionTreeBuilderSeq.Build env NewSequentialDecisionTreeBuilder = some b ∧
        DecisionTreeBuilderParallel.Build env NewParallelDecisionTreeBuilder = some b ∧
        b.store.children l = [] ∧ ∀ n : Nat, Reachable b.store l n → n = l) := by
  refine ⟨?_, ?_⟩
  · intro st leaf lf nl rem hleaf hrem hno
    exact growLeaf_no_keys env (width - 1) st leaf lf nl rem hleaf hrem hno
  · intro k bk l hk he hl hno
    obtain ⟨b, hS, hP, hc, _, _, _⟩ := no_keys_stays_leaf env width hw k hk bk he l hl hno
    exact ⟨b, hS, hP, hc, fun n hn => reachable_of_no_children hc hn⟩

theorem zero_values_no_children_witness :
    ∃ b, DecisionTreeBuilderSeq.Build envOne NewSequentialDecisionTreeBuilder = some b ∧
      DecisionTreeBuilderParallel.Build envOne NewParallelDecisionTreeBuilder = some b ∧
      b.store.children 0 = [] ∧ ∀ n : Nat, Reachable b.store 0 n → n = 0 :=
  (zero_values_no_children envOne 2 (by decide)).2 0 NewSequentialDecisionTreeBuilder 0
    (by decide) rfl (by decide)
    (by
      intro rem hrem
      have h : getRemainingFeatures (NewSequentialDecisionTreeBuilder.store.features 0)
          (2 - 1) = some [1] := by decide
      rw [h] at hrem
      have := Option.some.inj hrem
      subst this
      decide)

/-! ## The ceiling of the reduction loop -/

/-- C20: in the reduction loop of `growTree`, and identically of `AggregatorTask.execute`, a
remaining column of entropy at least 1.0 is never selected (for a path with columns in
`1..numFeatures` and `numFeatures` within the limit up to which `make` allocates, so that
`getRemainingFeatures` returns the remaining columns).  When some remaining column lies
strictly below 1.0 the selection is the remaining column of minimum entropy with the
smallest index; otherwise no column is selected, `bestDimension` stays 0, the winning
breakdown stays the zero value and the node receives no children.  During `Build` such a
node stays a leaf whose path is shorter than `numFeatures`, and no node of the returned tree
carries the column index 0. -/
theorem ceiling_column_never_selected {σ : Type} (env : Env σ) :
    (∀ (st : Store) (s : Slice) (numFeatures : Int), 0 ≤ numFeatures →
      numFeatures ≤ (maxAlloc : Int) →
      (∀ f ∈ st.read s, 1 ≤ f.ColumnIndex ∧ f.ColumnIndex ≤ numFeatures) →
      ∃ rem, getRemainingFeatures (st.read s) numFeatures = some rem ∧
        (∀ c ∈ rem, 1 ≤ env.computeEntropy (env.BreakDownSubtreeDimension (st.read s) c) →
          (selectBest env (st.read s) rem).bestDimension ≠ c) ∧
        ((∃ c ∈ rem, env.computeEntropy (env.BreakDownSubtreeDimension (st.read s) c) < 1) →
          (selectBest env (st.read s) rem).bestDimension ∈ rem ∧
          env.computeEntropy (env.BreakDownSubtreeDimension (st.read s)
            (selectBest env (st.read s) rem).bestDimension) < 1 ∧
          (∀ c ∈ rem,
            env.computeEntropy (env.BreakDownSubtreeDimension (st.read s)
                (selectBest env (st.read s) rem).bestDimension) ≤
              env.computeEntropy (env.BreakDownSubtreeDimension (st.read s) c)) ∧
          (∀ c ∈ rem,
            env.computeEntropy (env.BreakDownSubtreeDimension (st.read s) c) =
              env.computeEntropy (env.BreakDownSubtreeDimension (st.read s)
                (selectBest env (st.read s) rem).bestDimension) →
            (selectBest env (st.read s) rem).bestDimension ≤ c)) ∧
        ((∀ c ∈ rem, 1 ≤ env.computeEntropy (env.BreakDownSubtreeDimension (st.read s) c)) →
          (selectBest env (st.read s) rem).bestDimension = 0 ∧
          (selectBest env (st.read s) rem).bestBreakdown.Distribution = [] ∧
          ∀ (leaf : Nat) (lf : DecisionTreeNode) (nl : List Nat),
            st.nodes[leaf]? = some lf → lf.Features = s →
            growLeaf env numFeatures (st, nl) leaf = some (st, nl) ∧
            AggregatorTask.execute env st leaf numFeatures = some (st, [])) ∧
        (rem.map (AddEvalTask env st s)).foldl reduceStep Best.init =
          selectBest env (st.read s) rem) ∧
    (∀ (width : Int), getSchemaWidth env.Next = some width →
      ∀ (k : Nat) (bk : Builder) (l : Nat), k < (width - 1).toNat →
        growLoop (fun b => DecisionTreeBuilderSeq.growTree env b (width - 1)) k
          NewSequentialDecisionTreeBuilder = some bk →
        l ∈ bk.currentLeaves →
        (∀ c : Int, 1 ≤ c → c ≤ width - 1 → c ∉ columns (bk.store.features l) →
          1 ≤ env.computeEntropy (env.BreakDownSubtreeDimension (bk.store.features l) c)) →
        ∃ b, DecisionTreeBuilderSeq.Build env NewSequentialDecisionTreeBuilder = some b ∧
          DecisionTreeBuilderParallel.Build env NewParallelDecisionTreeBuilder = some b ∧
          b.store.children l = [] ∧ ((b.store.features l).length : Int) < width - 1 ∧
          ∀ n : Nat, Reachable b.store b.root n → (0 : Int) ∉ columns (b.store.features n)) := by
  refine ⟨?_, ?_⟩
  · intro st s numFeatures h0 hmax hp
    obtain ⟨rem, hrem, hpw, hm⟩ := getRemainingFeatures_spec (st.read s) numFeatures h0 hmax hp
    refine ⟨rem, hrem, ?_, ?_, ?_, reduce_eq_select env st s rem Best.init⟩
    · intro c hc hge heq
      rcases foldl_selectStep_spec env (st.read s) rem Best.init hpw with
        ⟨he, _⟩ | ⟨_, _, h3, h4, _⟩
      · have hsel : selectBest env (st.read s) rem = Best.init := he
        rw [hsel] at heq
        have h1 := ((hm c).1 hc).1
        have h2 : (0 : Int) = c := heq
        omega
      · have h5 : (selectBest env (st.read s) rem).bestEntropy =
            env.computeEntropy (env.BreakDownSubtreeDimension (st.read s) c) := by
          rw [← heq]
          exact h3
        have h6 : (selectBest env (st.read s) rem).bestEntropy < 1 := h4
        rw [h5] at h6
        exact absurd h6 (not_lt.2 hge)
    · rintro ⟨c, hc, hlt⟩
      rcases foldl_selectStep_spec env (st.read s) rem Best.init hpw with
        ⟨_, hall⟩ | ⟨h1, _, h3, h4, h5⟩
      · exact absurd hlt (hall c hc)
      · refine ⟨h1, ?_, ?_, ?_⟩
        · have h6 : (selectBest env (st.read s) rem).bestEntropy < 1 := h4
          exact h3 ▸ h6
        · intro d hd
          exact h3 ▸ (h5 d hd).1
        · intro d hd hEq
          exact (h5 d hd).2 (hEq.trans h3.symm)
    · intro hall
      have hsel := select_none env (st.read s) rem hpw hall
      refine ⟨by rw [hsel]; rfl, by rw [hsel]; rfl, ?_⟩
      intro leaf lf nl hleaf hfs
      subst hfs
      exact growLeaf_no_keys env numFeatures st leaf lf nl rem hleaf hrem (by rw [hsel]; rfl)
  · intro width hw k bk l hk he hl hall
    obtain ⟨bk1, he1, _, hb⟩ := afterLevels_spec env (width - 1)
        (width_fits env width hw) k (by intro h; omega)
    have he2 : afterLevels env (width - 1) k = some bk := he
    rw [he2] at he1
    have := Option.some.inj he1
    subst this
    obtain ⟨lf, h1, _, _⟩ := hb.frontier l hl
    have hgood : GoodPath (width - 1) (bk.store.features l) := hb.inv.features_good l
    obtain ⟨b, hS, hP, hc, _, hlen, hb2⟩ := no_keys_stays_leaf env width hw k hk bk he2 l hl
      (by
        intro rem hrem
        obtain ⟨rem1, hrem1, hpw, hm⟩ :=
          getRemainingFeatures_spec (bk.store.features l) (width - 1) (by omega)
            (width_fits env width hw) hgood.2
        rw [hrem] at hrem1
        have := Option.some.inj hrem1
        subst this
        rw [select_none env (bk.store.features l) rem hpw (by
          intro c hc
          obtain ⟨a1, a2, a3⟩ := (hm c).1 hc
          exact hall c a1 a2 a3)]
        rfl)
    refine ⟨b, hS, hP, hc, by rw [hlen]; omega, ?_⟩
    intro n _ hmem
    simp only [columns, List.mem_map] at hmem
    obtain ⟨f, hf, hf0⟩ := hmem
    have := (hb2.inv.features_good n).2 f hf
    omega

theorem ceiling_column_never_selected_witness :
    ∃ b, DecisionTreeBuilderSeq.Build envOne NewSequentialDecisionTreeBuilder = some b ∧
      DecisionTreeBuilderParallel.Build envOne NewParallelDecisionTreeBuilder = some b ∧
      b.store.children 0 = [] ∧
      ((b.store.features 0).length : Int) < 2 - 1 ∧
      ∀ n : Nat, Reachable b.store b.root n → (0 : Int) ∉ columns (b.store.features n) :=
  (ceiling_column_never_selected envOne).2 2 (by decide) 0 NewSequentialDecisionTreeBuilder 0
    (by decide) rfl (by decide) (by intro c _ _ _; simp [envOne])

/-! ## Frontiers and children under two visiting orders -/

/-- C16 at the data set `v,v,v,a,t` / `v,v,v,b,t`, from the state after three levels (the
single current leaf is node 3): the parallel `growTree`, visiting the values of column 4 as
`b, a`, runs one aggregator, whose children `[4, 5]` become the new leaves, both with path
`(1,v),(2,v),(3,v),(4,a)`; the sequential `growTree`, visiting them as `a, b`, yields new
leaves that both have path `(1,v),(2,v),(3,v),(4,b)`.  The two frontiers are not equal up to
the order of the children. -/
theorem parallel_frontier_differs :
    growLoop (fun b => DecisionTreeBuilderParallel.growTree envFourRev b 4) 3
      NewParallelDecisionTreeBuilder = afterThreeLevels ∧
    afterThreeLevels.map (fun b3 => b3.currentLeaves) = some [3] ∧
    (afterThreeLevels.bind (fun b3 =>
      runAggregators envFourRev 4 b3.currentLeaves (b3.store, []))).map (fun r => r.2) =
      some [[4, 5]] ∧
    (afterThreeLevels.bind (fun b3 => DecisionTreeBuilderParallel.growTree envFourRev b3 4)).map
      (fun b => (b.currentLeaves, b.currentLeaves.map b.store.features)) =
      some ([4, 5], [[⟨1, "v"⟩, ⟨2, "v"⟩, ⟨3, "v"⟩, ⟨4, "a"⟩],
        [⟨1, "v"⟩, ⟨2, "v"⟩, ⟨3, "v"⟩, ⟨4, "a"⟩]]) ∧
    (afterThreeLevels.bind (fun b3 => DecisionTreeBuilderSeq.growTree envFour b3 4)).map
      (fun b => (b.currentLeaves, b.currentLeaves.map b.store.features)) =
      some ([4, 5], [[⟨1, "v"⟩, ⟨2, "v"⟩, ⟨3, "v"⟩, ⟨4, "b"⟩],
        [⟨1, "v"⟩, ⟨2, "v"⟩, ⟨3, "v"⟩, ⟨4, "b"⟩]]) ∧
    ¬ List.Perm
      ([[⟨1, "v"⟩, ⟨2, "v"⟩, ⟨3, "v"⟩, ⟨4, "a"⟩], [⟨1, "v"⟩, ⟨2, "v"⟩, ⟨3, "v"⟩, ⟨4, "a"⟩]] :
        List (List DimensionFilter))
      [[⟨1, "v"⟩, ⟨2, "v"⟩, ⟨3, "v"⟩, ⟨4, "b"⟩], [⟨1, "v"⟩, ⟨2, "v"⟩, ⟨3, "v"⟩, ⟨4, "b"⟩]] := by
  refine ⟨by decide, by decide, by decide, by decide, by decide, ?_⟩
  intro h
  have hmem := h.mem_iff.1 (List.mem_cons_self _ _)
  exact absurd hmem (by decide)

/-- C17 at the data set `v,v,v,a,t` / `v,v,v,b,t`: two growth steps from the same state,
with the same frontier `[3]`, the same path of node 3, the same data set and the same
`numFeatures`, which differ only in the order in which `range` visits the two values of
column 4, give node 3 children with different sets of paths: `(1,v),(2,v),(3,v),(4,b)` only
in one run, `(1,v),(2,v),(3,v),(4,a)` only in the other. -/
theorem children_depend_on_visiting_order :
    (∀ (path : List DimensionFilter) (c : Int),
      (envFour.BreakDownSubtreeDimension path c).Distribution.Perm
        (envFourRev.BreakDownSubtreeDimension path c).Distribution ∧
      envFour.computeEntropy (envFour.BreakDownSubtreeDimension path c) =
        envFourRev.computeEntropy (envFourRev.BreakDownSubtreeDimension path c)) ∧
    afterThreeLevels.map (fun b3 => (b3.currentLeaves, b3.store.features 3)) =
      some ([3], [⟨1, "v"⟩, ⟨2, "v"⟩, ⟨3, "v"⟩]) ∧
    (afterThreeLevels.bind (fun b3 => DecisionTreeBuilderSeq.growTree envFour b3 4)).map
      (fun b => (b.store.children 3).map b.store.features) =
      some [[⟨1, "v"⟩, ⟨2, "v"⟩, ⟨3, "v"⟩, ⟨4, "b"⟩], [⟨1, "v"⟩, ⟨2, "v"⟩, ⟨3, "v"⟩, ⟨4, "b"⟩]] ∧
    (afterThreeLevels.bind (fun b3 => DecisionTreeBuilderSeq.growTree envFourRev b3 4)).map
      (fun b => (b.store.children 3).map b.store.features) =
      some [[⟨1, "v"⟩, ⟨2, "v"⟩, ⟨3, "v"⟩, ⟨4, "a"⟩], [⟨1, "v"⟩, ⟨2, "v"⟩, ⟨3, "v"⟩, ⟨4, "a"⟩]] ∧
    (DecisionTreeBuilderSeq.Build envFour NewSequentialDecisionTreeBuilder).map
      (fun b => (b.store.children 3).map b.store.features) =
      some [[⟨1, "v"⟩, ⟨2, "v"⟩, ⟨3, "v"⟩, ⟨4, "b"⟩], [⟨1, "v"⟩, ⟨2, "v"⟩, ⟨3, "v"⟩, ⟨4, "b"⟩]] ∧
    (DecisionTreeBuilderSeq.Build envFourRev NewSequentialDecisionTreeBuilder).map
      (fun b => (b.store.children 3).map b.store.features) =
      some [[⟨1, "v"⟩, ⟨2, "v"⟩, ⟨3, "v"⟩, ⟨4, "a"⟩], [⟨1, "v"⟩, ⟨2, "v"⟩, ⟨3, "v"⟩, ⟨4, "a"⟩]] := by
  refine ⟨?_, by decide, by decide, by decide, by decide, by decide⟩
  intro path c
  refine ⟨?_, rfl⟩
  by_cases h : c = 4
  · simp only [envFour, envFourRev, h, if_true]
    exact List.Perm.swap _ _ _
  · simp only [envFour, envFourRev, h, if_false]
    exact List.Perm.refl _

end DecisionTree
